import Mathlib

/-!
Verification development for `codehash` (`src/codehash/__init__.py`), a library
computing a stable content-derived identity (`hash_function`) for a Python
function: a canonical dump of its syntax tree combined with classified hashes
of every value its code reads from enclosing scopes and module globals.

The embedding below translates the source file function by function.
Python values are modelled by the inductive `PyVal` (primitives, lists,
tuples, string-keyed dicts, and opaque instances); machine-level details the
source delegates to the host (source parsing, the sha1 digest, floating point)
are modelled per the specification's "external collaborator" clauses and noted
at the definitions concerned.  Recursion in `hash_function` is modelled with
an explicit fuel parameter that decreases exactly at the one recursive call
site the source has (dependency-function hashing), so that fuel consumption
coincides with dependency-graph recursion depth.
-/

/-! ## List and string utilities

Python string comparison is lexicographic on code points; `lexLtB` models it
on `List Char` (Lean's built-in `String` order does not reduce in the kernel).
-/

def lexLtB : List Char → List Char → Bool
  | [], [] => false
  | [], _ :: _ => true
  | _ :: _, [] => false
  | a :: as, b :: bs => if a < b then true else if b < a then false else lexLtB as bs

def strLtB (a b : String) : Bool := lexLtB a.data b.data

def strLeB (a b : String) : Bool := !(strLtB b a)

/-- Stable insertion of a string into a sorted list (the element being
inserted comes before equal elements, matching a stable ascending sort). -/
def insStr (x : String) : List String → List String
  | [] => [x]
  | y :: ys => if strLeB x y then x :: y :: ys else y :: insStr x ys

/-- Stable ascending sort of strings, modelling Python's `sorted` on a
key set of mutually comparable (here: string) keys. -/
def sortStrs : List String → List String
  | [] => []
  | x :: xs => insStr x (sortStrs xs)

/-- First-match association lookup, modelling dictionary indexing. -/
def lookupA {κ α : Type} [BEq κ] (k : κ) : List (κ × α) → Option α
  | [] => none
  | (k', v) :: rest => if k' == k then some v else lookupA k rest

/-- Replace the value at the first occurrence of a key, keeping its position
(Python dict assignment for a present key). -/
def assocSet {κ α : Type} [BEq κ] (l : List (κ × α)) (k : κ) (v : α) : List (κ × α) :=
  match l with
  | [] => []
  | (k', v') :: rest => if k' == k then (k', v) :: rest else (k', v') :: assocSet rest k v

/-- Python dict assignment `d[k] = v`: overwrite in place if the key is
present, otherwise append at the end. -/
def dictInsert {κ α : Type} [BEq κ] (l : List (κ × α)) (k : κ) (v : α) : List (κ × α) :=
  if (lookupA k l).isSome then assocSet l k v else l ++ [(k, v)]

/-- Set-style insertion used for the unbound-name set. -/
def setInsert (l : List String) (x : String) : List String :=
  if l.contains x then l else l ++ [x]

/-- Sequence a list of fallible results, keeping the first error: this is the
order in which a Python comprehension propagates the first raised exception. -/
def seqList {ε α : Type} : List (Except ε α) → Except ε (List α)
  | [] => .ok []
  | x :: xs =>
    match x with
    | .error e => .error e
    | .ok a =>
      match seqList xs with
      | .error e => .error e
      | .ok as_ => .ok (a :: as_)

/-- Model of `str.split('.')` on the dotted module name. -/
def splitDotAux (cur : List Char) : List Char → List String
  | [] => [String.mk cur.reverse]
  | c :: cs => if c = '.' then String.mk cur.reverse :: splitDotAux [] cs
               else splitDotAux (c :: cur) cs

def splitDotted (s : String) : List String := splitDotAux [] s.data

/-- Model of `'.'.join(parts)`. -/
def joinDots : List String → String
  | [] => ""
  | [s] => s
  | s :: rest => s ++ "." ++ joinDots rest

def isPrefixL : List Char → List Char → Bool
  | [], _ => true
  | _ :: _, [] => false
  | p :: ps, c :: cs => p == c && isPrefixL ps cs

/-- Model of `str.startswith`: `startsWithB file p` is `file.startswith(p)`. -/
def startsWithB (s p : String) : Bool := isPrefixL p.data s.data

/-! ## The value universe

`PyVal` models the Python values the library's serializer distinguishes
(`deep_transform`, lines 127-136): `None`, booleans, integers, strings,
lists, tuples, dicts, and otherwise-opaque class instances.  Dict keys are
modelled as strings (the specification requires keys to be mutually
comparable; incomparable key sets are unsupported input).  Floating-point
values and byte strings are outside the embedding.  An opaque instance
`objV id ch` carries an identity tag and the result of its `__codehash__`
method when that attribute exists (`ch = some h`).
-/

inductive PyVal where
  | noneV : PyVal
  | boolV : Bool → PyVal
  | intV : Int → PyVal
  | strV : String → PyVal
  | listV : List PyVal → PyVal
  | tupleV : List PyVal → PyVal
  | dictV : List (String × PyVal) → PyVal
  | objV : Nat → Option String → PyVal

/-- Transformed values: the output universe of `deep_transform` when its
`transform` argument is the one `repr_hashable` builds, in which every opaque
object has been replaced by a `Hashed(...)` wrapper. -/
inductive TVal where
  | noneT : TVal
  | boolT : Bool → TVal
  | intT : Int → TVal
  | strT : String → TVal
  | listT : List TVal → TVal
  | tupleT : List TVal → TVal
  | dictT : List (String × TVal) → TVal
  | hashedT : String → TVal

/-! ## Python `repr`

The serializer's output (`repr_hashable`, line 160) is the Python `repr` of
the transformed value.  `reprL` renders a `TVal` exactly as CPython would:
decimal integers, quote-selected and escaped string literals, `[...]`,
`(...)` with the singleton trailing comma, `{k: v}` with `', '` separators,
and `Hashed('...')` for wrapped objects (class `Hashed`, lines 139-144).
Escaping covers the printable fragment (backslash, quotes, newline, carriage
return, tab); host-specific `\xNN` escapes of non-printables are outside the
embedding.
-/

def digitChar : Nat → Char
  | 0 => '0' | 1 => '1' | 2 => '2' | 3 => '3' | 4 => '4'
  | 5 => '5' | 6 => '6' | 7 => '7' | 8 => '8' | 9 => '9'
  | _ => '*'

def natDigitsF : Nat → Nat → List Char
  | 0, _ => []
  | fuel+1, n => if n < 10 then [digitChar n] else natDigitsF fuel (n / 10) ++ [digitChar (n % 10)]

/-- Decimal digits of a natural number (most significant first). -/
def natDigits (n : Nat) : List Char := natDigitsF (n + 1) n

/-- Decimal rendering of a Python integer. -/
def intRepr : Int → List Char
  | .ofNat m => natDigits m
  | .negSucc m => '-' :: natDigits (m + 1)

/-- One character of a Python string literal under quote character `q`. -/
def escChar (q c : Char) : List Char :=
  if c = '\\' then ['\\', '\\']
  else if c = q then ['\\', q]
  else if c = '\n' then ['\\', 'n']
  else if c = '\r' then ['\\', 'r']
  else if c = '\t' then ['\\', 't']
  else [c]

def escList (q : Char) : List Char → List Char
  | [] => []
  | c :: cs => escChar q c ++ escList q cs

/-- CPython's quote selection: single quotes, unless the string contains a
single quote and no double quote. -/
def quoteFor (cs : List Char) : Char :=
  if cs.contains '\'' && !(cs.contains '"') then '"' else '\''

/-- Python `repr` of a string. -/
def pyStrRepr (s : String) : List Char :=
  let q := quoteFor s.data
  q :: (escList q s.data ++ [q])

def pyStrReprS (s : String) : String := String.mk (pyStrRepr s)

mutual
/-- Python `repr` of a transformed value, as a character list. -/
def reprL : TVal → List Char
  | .noneT => "None".data
  | .boolT b => if b then "True".data else "False".data
  | .intT n => intRepr n
  | .strT s => pyStrRepr s
  | .listT xs => '[' :: (reprItems xs ++ [']'])
  | .tupleT [] => "()".data
  | .tupleT [x] => '(' :: (reprL x ++ ",)".data)
  | .tupleT (x :: y :: xs) => '(' :: (reprItems (x :: y :: xs) ++ [')'])
  | .dictT kvs => '{' :: (reprPairs kvs ++ ['}'])
  | .hashedT h => "Hashed(".data ++ (pyStrRepr h ++ [')'])

def reprItems : List TVal → List Char
  | [] => []
  | [x] => reprL x
  | x :: y :: xs => reprL x ++ (", ".data ++ reprItems (y :: xs))

def reprPairs : List (String × TVal) → List Char
  | [] => []
  | [(k, v)] => pyStrRepr k ++ (": ".data ++ reprL v)
  | (k, v) :: p :: rest => pyStrRepr k ++ (": ".data ++ (reprL v ++ (", ".data ++ reprPairs (p :: rest))))
end

def reprTVal (v : TVal) : String := String.mk (reprL v)

/-! ## Error classes

Two failure classes, never conflated (spec section 7): `CodehashError`
(constructors `codehashRaw`, `codehashUnknown`, `codehashIn` — the raw raise
at line 100, the serializer's unknown-object raise at line 157, and the
wrapped re-raise at line 105 carrying the function, name and value) versus
non-classified failures: the `assert` at line 78 (`assertionFailed`), a
missing registry entry (`keyError`), and exhausted recursion depth
(`outOfFuel`, CPython's `RecursionError`).
-/

structure ModuleInfo where
  name : String
  file : String
  version : Option String

inductive Value where
  | module : ModuleInfo → Value
  | cls : String → String → Value
  | func : Nat → Value
  | plain : PyVal → Value

inductive Err where
  | codehashRaw : Err
  | codehashUnknown : PyVal → Err
  | codehashIn : Nat → String → Value → Err
  | assertionFailed : Err
  | keyError : Err
  | outOfFuel : Err

def isCodehash : Err → Bool
  | .codehashRaw => true
  | .codehashUnknown _ => true
  | .codehashIn _ _ _ => true
  | _ => false

/-! ## Canonical value serializer (`deep_transform` / `repr_hashable`) -/

mutual
/-- Structural size of a value, used as the recursion fuel of
`deepTransform` (each recursion level consumes one unit, and every child is
strictly smaller). -/
def sizeP : PyVal → Nat
  | .noneV => 1
  | .boolV _ => 1
  | .intV _ => 1
  | .strV _ => 1
  | .listV xs => 1 + sizePList xs
  | .tupleV xs => 1 + sizePList xs
  | .dictV kvs => 1 + sizePPairs kvs
  | .objV _ _ => 1

def sizePList : List PyVal → Nat
  | [] => 0
  | x :: xs => sizeP x + sizePList xs

def sizePPairs : List (String × PyVal) → Nat
  | [] => 0
  | (_, v) :: rest => sizeP v + sizePPairs rest
end

/-- Attribute access `__codehash__` (present only on opaque instances that
define it). -/
def codehashAttr : PyVal → Option String
  | .objV _ ch => ch
  | _ => none

/-- Hashing hook supplied by the caller (`HashHook`). -/
def Hook : Type := PyVal → Option String

/-- The `transform` closure of `repr_hashable` (lines 151-158): a value with
a `__codehash__` method identifies itself; otherwise the hook is consulted;
otherwise the classified `Unknown object` failure is raised. -/
def transformOf (hook : Option Hook) (o : PyVal) : Except Err TVal :=
  let hashid : Option String :=
    match codehashAttr o with
    | some h => some h
    | none => match hook with
              | some hk => hk o
              | none => none
  match hashid with
  | none => .error (.codehashUnknown o)
  | some h => .ok (.hashedT h)

/-- Body of `deep_transform` (lines 127-136), with an explicit structural
fuel (any fuel at least the value's size is enough; `deepTransform` below
supplies it).  Scalars pass through; lists and tuples recurse elementwise in
order; dicts recurse over their keys sorted into ascending order, so that
insertion order never reaches the output; anything else goes to `transform`.
The `keyError` branch is unreachable: the sorted keys come from the dict
itself. -/
def deepTransformF (t : PyVal → Except Err TVal) : Nat → PyVal → Except Err TVal
  | 0, _ => .error .outOfFuel
  | fuel+1, v =>
    match v with
    | .noneV => .ok .noneT
    | .boolV b => .ok (.boolT b)
    | .intV i => .ok (.intT i)
    | .strV s => .ok (.strT s)
    | .listV xs =>
      match seqList (xs.map (deepTransformF t fuel)) with
      | .error e => .error e
      | .ok ts => .ok (.listT ts)
    | .tupleV xs =>
      match seqList (xs.map (deepTransformF t fuel)) with
      | .error e => .error e
      | .ok ts => .ok (.tupleT ts)
    | .dictV kvs =>
      match seqList ((sortStrs (kvs.map Prod.fst)).map (fun k =>
        match lookupA k kvs with
        | some w =>
          match deepTransformF t fuel w with
          | .error e => .error e
          | .ok tw => .ok (k, tw)
        | none => .error .keyError)) with
      | .error e => .error e
      | .ok ts => .ok (.dictT ts)
    | .objV i ch => t (.objV i ch)

def deepTransform (t : PyVal → Except Err TVal) (v : PyVal) : Except Err TVal :=
  deepTransformF t (sizeP v) v

/-- Model of `repr_hashable` (lines 147-160): transform the value and render
the result with Python `repr`. -/
def reprHashable (o : PyVal) (hook : Option Hook) : Except Err String :=
  match deepTransform (transformOf hook) o with
  | .error e => .error e
  | .ok tv => .ok (reprTVal tv)

/-- Model of `hash_text` (lines 45-46).  The sha1 digest is an external
cryptographic primitive (spec section 1); it is modelled as an injective
tagging of the canonical text, the standard idealization under which
"identities differ" claims are read (the spec accepts hash collisions as
out-of-model risk). -/
def hashText (s : String) : String := "sha1:" ++ s

/-! ## Structural code normalizer (`ast_code_of`, lines 49-71)

Obtaining and parsing a function's source text is an external collaborator
(spec section 1): the embedding starts from the parsed tree.  A `FuncSrc`
records what `inspect.getsource` + `ast.parse` yield for one function:
the decorator lines that `dropwhile` discards before parsing (line 51), and
the parsed `FunctionDef`'s name, parameter list and body.  Comments and
incidental whitespace do not survive parsing, so sources differing only
there yield the same `FuncSrc`.
-/

mutual
inductive Expr where
  | constNone : Expr
  | constBool : Bool → Expr
  | constInt : Int → Expr
  | constStr : String → Expr
  | nameE : String → Expr
  | call : Expr → List Expr → Expr

inductive Stmt where
  | exprS : Expr → Stmt
  | ret : Option Expr → Stmt
  | passS : Stmt
  | assign : String → Expr → Stmt
  | funcDef : String → List String → List Stmt → Stmt
  | classDef : String → List Stmt → Stmt
end

structure FuncSrc where
  decorators : List String
  name : String
  args : List String
  body : List Stmt

/-- Body step of `remove_docstring` (lines 63-71): drop a leading
expression-statement string literal from a definition body, once. -/
def dropDoc : List Stmt → List Stmt
  | .exprS (.constStr _) :: rest => rest
  | b => b

mutual
/-- Effect of the `ast.walk` loop (lines 56-57): `remove_docstring` fires on
every function/class definition node of the tree (the module node holds no
leading string, and the popped string node contains no definitions, so the
breadth-first walk is equivalent to this recursive strip). -/
def stripStmt : Stmt → Stmt
  | .funcDef n a (.exprS (.constStr _) :: rest) => .funcDef n a (stripList rest)
  | .funcDef n a b => .funcDef n a (stripList b)
  | .classDef n (.exprS (.constStr _) :: rest) => .classDef n (stripList rest)
  | .classDef n b => .classDef n (stripList b)
  | s => s

def stripList : List Stmt → List Stmt
  | [] => []
  | s :: ss => stripStmt s :: stripList ss
end

def stripBody (b : List Stmt) : List Stmt :=
  stripList (dropDoc b)

def dumpArgs : List String → String
  | [] => ""
  | [a] => "arg(" ++ pyStrReprS a ++ ")"
  | a :: b :: rest => "arg(" ++ pyStrReprS a ++ "), " ++ dumpArgs (b :: rest)

mutual
/-- Canonical structural dump, modelling `ast.dump(node, annotate_fields=False)`:
node types and child values positionally, no field names, no positions. -/
def dumpExpr : Expr → String
  | .constNone => "Constant(None)"
  | .constBool b => if b then "Constant(True)" else "Constant(False)"
  | .constInt n => "Constant(" ++ String.mk (intRepr n) ++ ")"
  | .constStr s => "Constant(" ++ pyStrReprS s ++ ")"
  | .nameE x => "Name(" ++ pyStrReprS x ++ ", Load())"
  | .call f args => "Call(" ++ dumpExpr f ++ ", [" ++ dumpExprList args ++ "], [])"

def dumpExprList : List Expr → String
  | [] => ""
  | [e] => dumpExpr e
  | e :: f :: rest => dumpExpr e ++ ", " ++ dumpExprList (f :: rest)

def dumpStmt : Stmt → String
  | .exprS e => "Expr(" ++ dumpExpr e ++ ")"
  | .ret none => "Return(None)"
  | .ret (some e) => "Return(" ++ dumpExpr e ++ ")"
  | .passS => "Pass()"
  | .assign x e => "Assign([Name(" ++ pyStrReprS x ++ ", Store())], " ++ dumpExpr e ++ ")"
  | .funcDef n a b =>
    "FunctionDef(" ++ pyStrReprS n ++ ", arguments(" ++ dumpArgs a ++ "), [" ++
      dumpStmtList b ++ "], [])"
  | .classDef n b => "ClassDef(" ++ pyStrReprS n ++ ", [], [], [" ++ dumpStmtList b ++ "], [])"

def dumpStmtList : List Stmt → String
  | [] => ""
  | [s] => dumpStmt s
  | s :: t :: rest => dumpStmt s ++ ", " ++ dumpStmtList (t :: rest)
end

/-- Model of `ast_code_of` (lines 49-60): the decorator lines are dropped
before parsing (`dropwhile`, line 51), docstrings are removed from the whole
tree, the function's own name is cleared, and the result is dumped.  The
source's assertions that parsing yields exactly one function definition hold
by construction here, since a `FuncSrc` is the parse of one function. -/
def astCodeOf (src : FuncSrc) : String :=
  let postDecorators := (src.decorators.map (fun d => "@" ++ d)).dropWhile (fun l => startsWithB l "@")
  let _ := postDecorators
  dumpStmt (.funcDef "" src.args (stripBody src.body))

/-! ## Closure and global resolver (`getclosurevars`, lines 165-192)

A compiled code unit (`types.CodeType`) is modelled by its `co_names` (names
read from the global or builtin scope; the compiler already excludes locals
and cell variables) and its `co_consts` entries that are themselves code
units (nested function/lambda/comprehension bodies).
-/

inductive Code where
  | mk : List String → List Code → Code

mutual
/-- Names collected by the work-list loop (lines 178-184): the list is used
as a stack (`pop` takes the last element, constants are appended in order),
so children are expanded last-pushed-first. -/
def collectCode : Code → List String
  | .mk names consts => names ++ collectRev consts

def collectRev : List Code → List String
  | [] => []
  | c :: cs => collectRev cs ++ collectCode c
end

/-- A function object as the resolver and hasher see it: its parsed source,
its `__module__` and `__qualname__`, the `zip(co_freevars, __closure__)`
cell bindings, its `__globals__` namespace, the builtin namespace reachable
from it (`__globals__['__builtins__']`), and its compiled code. -/
structure FuncDef where
  src : FuncSrc
  module : String
  qualname : String
  nonlocals : List (String × Value)
  globalNS : List (String × Value)
  builtinNS : List (String × Value)
  code : Code

/-- The process-wide environment: live function objects (keyed by object
identity), the `sys.modules` registry, and the standard-library roots
computed from representative modules (`STDLIB_PATHS`, line 25). -/
structure Env where
  funcs : List (Nat × FuncDef)
  modules : List (String × ModuleInfo)
  stdlibPaths : List String

structure ClosureVars where
  nonlocals : List (String × Value)
  globalVars : List (String × Value)
  builtinVars : List (String × Value)
  unbound : List String

/-- Resolution loop (lines 184-191): each collected name is looked up in the
module's global namespace, then in builtins, else recorded unbound. -/
def resolveLoop (gNS bNS : List (String × Value)) :
    List String → List (String × Value) → List (String × Value) → List String →
    List (String × Value) × List (String × Value) × List String
  | [], gA, bA, uA => (gA, bA, uA)
  | n :: rest, gA, bA, uA =>
    match lookupA n gNS with
    | some v => resolveLoop gNS bNS rest (dictInsert gA n v) bA uA
    | none =>
      match lookupA n bNS with
      | some v => resolveLoop gNS bNS rest gA (dictInsert bA n v) uA
      | none => resolveLoop gNS bNS rest gA bA (setInsert uA n)

/-- Model of `getclosurevars` (lines 165-192). -/
def getclosurevars (fd : FuncDef) : ClosureVars :=
  let names := collectCode fd.code
  let r := resolveLoop fd.globalNS fd.builtinNS names [] [] []
  ⟨fd.nonlocals, r.1, r.2.1, r.2.2⟩

/-! ## Dependency classifier and hasher (`hashed_globals_of`, lines 74-106) -/

/-- Model of `is_stdlib` (lines 113-114). -/
def isStdlib (env : Env) (m : ModuleInfo) : Bool :=
  env.stdlibPaths.any (fun p => startsWithB m.file p)

/-- Iterations of the loop in `version_of` (lines 117-124): try the dotted
prefixes of the module name from most to least specific; a prefix missing
from `sys.modules` is an uncaught `KeyError`. -/
def versionWalk (env : Env) (parts : List String) : Nat → Except Err (Option String)
  | 0 => .ok none
  | n+1 =>
    match lookupA (joinDots (parts.take (n + 1))) env.modules with
    | none => .error .keyError
    | some mi =>
      match mi.version with
      | some ver => if ver = "" then versionWalk env parts n else .ok (some ver)
      | none => versionWalk env parts n

/-- Model of `version_of` (lines 117-124): the first non-empty
`__version__` attribute on any dotted-name ancestor in the registry
(`if version:` treats `None` and the empty string alike as absent). -/
def versionOf (env : Env) (name : String) : Except Err (Option String) :=
  let parts := splitDotted name
  versionWalk env parts parts.length

abbrev Cache : Type := List (Nat × String)

/-- The re-raise at lines 104-105: a `CodehashError` escaping one item's
classification is replaced by one naming the function, the dependency name
and the offending value; other exceptions pass through. -/
def wrapErr (f : Nat) (name : String) (v : Value) (e : Err) : Err :=
  if isCodehash e then .codehashIn f name v else e

/-- Classification of one captured value (the `try` body, lines 82-103).
`rec` is the recursive `hash_function(obj)` call of line 97, which the
source makes without forwarding the hook. -/
def hashItemG (rec : Cache → Nat → Except Err String × Cache) (env : Env)
    (selfFid : Nat) (hook : Option Hook) (v : Value) (cache : Cache) :
    Except Err String × Cache :=
  match v with
  | .module m =>
    if isStdlib env m then (.ok (m.name ++ "(stdlib)"), cache)
    else
      match versionOf env m.name with
      | .error e => (.error e, cache)
      | .ok (some ver) => (.ok (m.name ++ "(" ++ ver ++ ")"), cache)
      | .ok none => (.error .codehashRaw, cache)
  | .cls mn qn =>
    match lookupA mn env.modules with
    | none => (.error .keyError, cache)
    | some mi =>
      let fullname := mn ++ ":" ++ qn
      if isStdlib env mi then (.ok (fullname ++ "(stdlib)"), cache)
      else
        match versionOf env mi.name with
        | .error e => (.error e, cache)
        | .ok (some ver) => (.ok (fullname ++ "(" ++ ver ++ ")"), cache)
        | .ok none => (.error .codehashRaw, cache)
  | .func fid =>
    match lookupA fid env.funcs with
    | none => (.error .keyError, cache)
    | some fd =>
      match lookupA fd.module env.modules with
      | none => (.error .keyError, cache)
      | some mi =>
        let fullname := fd.module ++ ":" ++ fd.qualname
        if isStdlib env mi then (.ok (fullname ++ "(stdlib)"), cache)
        else
          match versionOf env mi.name with
          | .error e => (.error e, cache)
          | .ok (some ver) => (.ok (fullname ++ "(" ++ ver ++ ")"), cache)
          | .ok none =>
            if fid == selfFid then (.ok "function:self", cache)
            else
              match rec cache fid with
              | (.error e, c') => (.error e, c')
              | (.ok h, c') => (.ok ("function:" ++ h), c')
  | .plain p =>
    match reprHashable p hook with
    | .error e => (.error e, cache)
    | .ok s => (.ok ("composite:" ++ hashText s), cache)

/-- The classification loop of `hashed_globals_of` (lines 80-105), building
the name-to-token dictionary in iteration order. -/
def globalsLoop (rec : Cache → Nat → Except Err String × Cache) (env : Env)
    (selfFid : Nat) (hook : Option Hook) :
    List (String × Value) → List (String × String) → Cache →
    Except Err (List (String × String)) × Cache
  | [], acc, cache => (.ok acc, cache)
  | (name, v) :: rest, acc, cache =>
    match hashItemG rec env selfFid hook v cache with
    | (.error e, c') => (.error (wrapErr selfFid name v e), c')
    | (.ok tok, c') => globalsLoop rec env selfFid hook rest (dictInsert acc name tok) c'

/-- Model of `hashed_globals_of` (lines 74-106): the unbound-name assertion,
then classification of `chain(nonlocals.items(), globals.items())` — builtin
bindings are not in the chain. -/
def hashedGlobalsOf (rec : Cache → Nat → Except Err String × Cache) (env : Env)
    (selfFid : Nat) (fd : FuncDef) (hook : Option Hook) (cache : Cache) :
    Except Err (List (String × String)) × Cache :=
  let cv := getclosurevars fd
  if cv.unbound.isEmpty then
    globalsLoop rec env selfFid hook (cv.nonlocals ++ cv.globalVars) [] cache
  else (.error .assertionFailed, cache)

/-- The combined record of line 41:
`{'ast_code': ast_code, 'globals': hashed_globals}`. -/
def specPyVal (astc : String) (pairs : List (String × String)) : PyVal :=
  .dictV [("ast_code", .strV astc),
          ("globals", .dictV (pairs.map (fun p => (p.1, PyVal.strV p.2))))]

/-- Model of `hash_function` (lines 34-42) with the process-wide `_cache`
threaded explicitly and fuel counting recursion depth (one unit per nested
dependency-function hash; exhaustion models CPython's `RecursionError`).
On a miss the canonical record is digested and stored with
`setdefault`. -/
def hashFunction : Nat → Env → Option Hook → Cache → Nat → Except Err String × Cache
  | 0, _, _, cache, _ => (.error .outOfFuel, cache)
  | fuel+1, env, hook, cache, fid =>
    match lookupA fid cache with
    | some h => (.ok h, cache)
    | none =>
      match lookupA fid env.funcs with
      | none => (.error .keyError, cache)
      | some fd =>
        let astc := astCodeOf fd.src
        match hashedGlobalsOf (fun c g => hashFunction fuel env none c g) env fid fd hook cache with
        | (.error e, c') => (.error e, c')
        | (.ok pairs, c') =>
          match reprHashable (specPyVal astc pairs) none with
          | .error e => (.error e, c')
          | .ok s =>
            match lookupA fid c' with
            | some h0 => (.ok h0, c')
            | none => (.ok (hashText s), c' ++ [(fid, hashText s)])

/-! ## Basic lemmas about the association-list and set operations -/

theorem lookupA_append {κ α : Type} [BEq κ] (k : κ) (l1 l2 : List (κ × α)) :
    lookupA k (l1 ++ l2) =
      match lookupA k l1 with
      | some v => some v
      | none => lookupA k l2 := by
  induction l1 with
  | nil => simp [lookupA]
  | cons p rest ih =>
    obtain ⟨k', v⟩ := p
    by_cases h : (k' == k) = true
    · simp [lookupA, h]
    · simp only [List.cons_append, lookupA, h]
      simpa using ih

theorem lookupA_assocSet_ne {κ α : Type} [BEq κ] [LawfulBEq κ] (l : List (κ × α))
    (n x : κ) (v : α) (hne : n ≠ x) : lookupA x (assocSet l n v) = lookupA x l := by
  induction l with
  | nil => simp [assocSet]
  | cons p rest ih =>
    obtain ⟨k', v'⟩ := p
    by_cases h : (k' == n) = true
    · have hkx : (k' == x) = false := by
        rw [beq_iff_eq] at h
        subst h
        simpa [beq_iff_eq] using hne
      simp [assocSet, lookupA, h, hkx]
    · simp only [assocSet, h, if_false]
      by_cases h2 : (k' == x) = true
      · simp [lookupA, h2]
      · simp [lookupA, h2, ih]

theorem lookupA_dictInsert_ne {κ α : Type} [BEq κ] [LawfulBEq κ] (l : List (κ × α))
    (n x : κ) (v : α) (hne : n ≠ x) : lookupA x (dictInsert l n v) = lookupA x l := by
  unfold dictInsert
  by_cases h : (lookupA n l).isSome
  · simp [h, lookupA_assocSet_ne l n x v hne]
  · simp only [h, if_false, Bool.false_eq_true, lookupA_append]
    have : (n == x) = false := by simpa [beq_iff_eq] using hne
    cases hx : lookupA x l <;> simp [lookupA, this]

theorem lookupA_dictInsert_self {κ α : Type} [BEq κ] [LawfulBEq κ] (l : List (κ × α))
    (n : κ) (v : α) : (lookupA n (dictInsert l n v)).isSome := by
  unfold dictInsert
  by_cases h : (lookupA n l).isSome
  · simp only [h, if_true]
    induction l with
    | nil => simp [lookupA] at h
    | cons p rest ih =>
      obtain ⟨k', v'⟩ := p
      by_cases hk : (k' == n) = true
      · simp [assocSet, lookupA, hk]
      · simp only [assocSet, hk, if_false]
        simp only [lookupA, hk, if_false] at h ⊢
        exact ih h
  · simp only [h, if_false, Bool.false_eq_true, lookupA_append]
    simp only [Option.not_isSome_iff_eq_none] at h
    simp [h, lookupA]

/-! ## Lemmas about sorting and sequencing -/

theorem mem_insStr (x y : String) : ∀ (l : List String), x ∈ insStr y l → x = y ∨ x ∈ l := by
  intro l
  induction l with
  | nil => intro h; simpa [insStr] using h
  | cons z rest ih =>
    intro h
    by_cases hle : strLeB y z = true
    · simp only [insStr] at h
      rw [if_pos hle, List.mem_cons, List.mem_cons] at h
      rcases h with h | h | h
      · exact Or.inl h
      · exact Or.inr (by simp [h])
      · exact Or.inr (by simp [h])
    · simp only [insStr] at h
      rw [if_neg hle, List.mem_cons] at h
      rcases h with h | h
      · exact Or.inr (by simp [h])
      · rcases ih h with h' | h'
        · exact Or.inl h'
        · exact Or.inr (by simp [h'])

theorem mem_sortStrs (x : String) : ∀ (l : List String), x ∈ sortStrs l → x ∈ l := by
  intro l
  induction l with
  | nil => intro h; simp [sortStrs] at h
  | cons y rest ih =>
    intro h
    simp only [sortStrs] at h
    rcases mem_insStr x y (sortStrs rest) h with h' | h'
    · simp [h']
    · simp [ih h']

theorem lookupA_isSome_of_mem_keys {α : Type} (k : String) :
    ∀ (l : List (String × α)), k ∈ l.map Prod.fst → (lookupA k l).isSome := by
  intro l
  induction l with
  | nil => intro h; simp at h
  | cons p rest ih =>
    intro h
    obtain ⟨k', v⟩ := p
    by_cases hk : (k' == k) = true
    · simp [lookupA, hk]
    · simp only [List.map_cons, List.mem_cons] at h
      rcases h with h | h
      · exact absurd (by simp [h] : (k' == k) = true) hk
      · simp only [lookupA, hk, if_false]
        exact ih h

theorem seqList_ok {ε α : Type} (l : List (Except ε α))
    (h : ∀ x ∈ l, ∃ a, x = .ok a) : ∃ as_, seqList l = .ok as_ := by
  induction l with
  | nil => exact ⟨[], rfl⟩
  | cons x rest ih =>
    obtain ⟨a, ha⟩ := h x (by simp)
    obtain ⟨as_, has⟩ := ih (fun y hy => h y (by simp [hy]))
    exact ⟨a :: as_, by simp [seqList, ha, has]⟩

/-! ## Plain data: values built from scalars and containers only

A dependency with no opaque instance anywhere inside always serializes
without consulting `transform`, hence without any possible failure.
-/

mutual
def plainB : PyVal → Bool
  | .noneV => true
  | .boolV _ => true
  | .intV _ => true
  | .strV _ => true
  | .listV xs => plainListB xs
  | .tupleV xs => plainListB xs
  | .dictV kvs => plainPairsB kvs
  | .objV _ _ => false

def plainListB : List PyVal → Bool
  | [] => true
  | x :: xs => plainB x && plainListB xs

def plainPairsB : List (String × PyVal) → Bool
  | [] => true
  | (_, v) :: rest => plainB v && plainPairsB rest
end

theorem sizeP_pos (v : PyVal) : 1 ≤ sizeP v := by
  cases v <;> simp [sizeP]

theorem sizeP_of_mem (x : PyVal) (xs : List PyVal) (h : x ∈ xs) :
    sizeP x ≤ sizePList xs := by
  induction xs with
  | nil => simp at h
  | cons y rest ih =>
    rcases List.mem_cons.mp h with h' | h'
    · subst h'
      simp [sizePList, Nat.le_add_right]
    · calc sizeP x ≤ sizePList rest := ih h'
        _ ≤ sizeP y + sizePList rest := Nat.le_add_left _ _
        _ = sizePList (y :: rest) := by simp [sizePList]

theorem sizeP_of_lookup (k : String) (kvs : List (String × PyVal)) (w : PyVal)
    (h : lookupA k kvs = some w) : sizeP w ≤ sizePPairs kvs := by
  induction kvs with
  | nil => simp [lookupA] at h
  | cons p rest ih =>
    obtain ⟨k', v⟩ := p
    by_cases hk : (k' == k) = true
    · simp only [lookupA, hk, if_true, Option.some.injEq] at h
      subst h
      simp [sizePPairs, Nat.le_add_right]
    · simp only [lookupA, hk, if_false] at h
      calc sizeP w ≤ sizePPairs rest := ih h
        _ ≤ sizeP v + sizePPairs rest := Nat.le_add_left _ _
        _ = sizePPairs ((k', v) :: rest) := by simp [sizePPairs]

theorem plain_of_mem (x : PyVal) (xs : List PyVal) (hp : plainListB xs = true)
    (h : x ∈ xs) : plainB x = true := by
  induction xs with
  | nil => simp at h
  | cons y rest ih =>
    simp only [plainListB, Bool.and_eq_true] at hp
    rcases List.mem_cons.mp h with h' | h'
    · subst h'; exact hp.1
    · exact ih hp.2 h'

theorem plain_of_lookup (k : String) (kvs : List (String × PyVal)) (w : PyVal)
    (hp : plainPairsB kvs = true) (h : lookupA k kvs = some w) : plainB w = true := by
  induction kvs with
  | nil => simp [lookupA] at h
  | cons p rest ih =>
    obtain ⟨k', v⟩ := p
    simp only [plainPairsB, Bool.and_eq_true] at hp
    by_cases hk : (k' == k) = true
    · simp only [lookupA, hk, if_true, Option.some.injEq] at h
      subst h; exact hp.1
    · simp only [lookupA, hk, if_false] at h
      exact ih hp.2 h

/-- Transforming a plain value always succeeds, for any fuel at least its
size: `transform` is never consulted and the unreachable `keyError` branch
is never taken. -/
theorem dt_ok_of_plain (t : PyVal → Except Err TVal) :
    ∀ (fuel : Nat) (v : PyVal), plainB v = true → sizeP v ≤ fuel →
      ∃ tv, deepTransformF t fuel v = .ok tv := by
  intro fuel
  induction fuel with
  | zero =>
    intro v _ hs
    exact absurd (Nat.le_trans (sizeP_pos v) hs) (by simp)
  | succ fuel ih =>
    intro v hp hs
    cases v with
    | noneV => exact ⟨_, rfl⟩
    | boolV b => exact ⟨_, rfl⟩
    | intV i => exact ⟨_, rfl⟩
    | strV s => exact ⟨_, rfl⟩
    | objV i ch => simp [plainB] at hp
    | listV xs =>
      simp only [plainB] at hp
      have : ∀ x ∈ xs.map (deepTransformF t fuel), ∃ a, x = .ok a := by
        intro x hx
        obtain ⟨y, hy, rfl⟩ := List.mem_map.mp hx
        refine ih y (plain_of_mem y xs hp hy) ?_
        have h1 : sizeP y ≤ sizePList xs := sizeP_of_mem y xs hy
        have h2 : 1 + sizePList xs ≤ fuel + 1 := by simpa [sizeP] using hs
        omega
      obtain ⟨as_, has⟩ := seqList_ok _ this
      exact ⟨TVal.listT as_, by simp [deepTransformF, has]⟩
    | tupleV xs =>
      simp only [plainB] at hp
      have : ∀ x ∈ xs.map (deepTransformF t fuel), ∃ a, x = .ok a := by
        intro x hx
        obtain ⟨y, hy, rfl⟩ := List.mem_map.mp hx
        refine ih y (plain_of_mem y xs hp hy) ?_
        have h1 : sizeP y ≤ sizePList xs := sizeP_of_mem y xs hy
        have h2 : 1 + sizePList xs ≤ fuel + 1 := by simpa [sizeP] using hs
        omega
      obtain ⟨as_, has⟩ := seqList_ok _ this
      exact ⟨TVal.tupleT as_, by simp [deepTransformF, has]⟩
    | dictV kvs =>
      simp only [plainB] at hp
      have : ∀ x ∈ (sortStrs (kvs.map Prod.fst)).map (fun k =>
          match lookupA k kvs with
          | some w =>
            match deepTransformF t fuel w with
            | Except.error e => Except.error e
            | Except.ok tw => Except.ok (k, tw)
          | none => Except.error Err.keyError), ∃ a, x = Except.ok a := by
        intro x hx
        obtain ⟨k, hk, rfl⟩ := List.mem_map.mp hx
        have hmem : k ∈ kvs.map Prod.fst := mem_sortStrs k _ hk
        obtain ⟨w, hw⟩ := Option.isSome_iff_exists.mp (lookupA_isSome_of_mem_keys k kvs hmem)
        obtain ⟨tw, htw⟩ := ih w (plain_of_lookup k kvs w hp hw) (by
          have h1 : sizeP w ≤ sizePPairs kvs := sizeP_of_lookup k kvs w hw
          have h2 : 1 + sizePPairs kvs ≤ fuel + 1 := by simpa [sizeP] using hs
          omega)
        exact ⟨(k, tw), by simp [hw, htw]⟩
      obtain ⟨as_, has⟩ := seqList_ok _ this
      exact ⟨TVal.dictT as_, by simp [deepTransformF, has]⟩

theorem dt_plain_ok (t : PyVal → Except Err TVal) (v : PyVal) (h : plainB v = true) :
    ∃ tv, deepTransform t v = .ok tv :=
  dt_ok_of_plain t (sizeP v) v h (Nat.le_refl _)

theorem plainPairs_map_str (pairs : List (String × String)) :
    plainPairsB (pairs.map (fun p => (p.1, PyVal.strV p.2))) = true := by
  induction pairs with
  | nil => rfl
  | cons p rest ih => simp [plainPairsB, plainB, ih]

/-- The canonical record of line 41 is built from strings only, so its
serialization always succeeds. -/
theorem reprHashable_spec_ok (astc : String) (pairs : List (String × String)) :
    ∃ s, reprHashable (specPyVal astc pairs) none = .ok s := by
  obtain ⟨tv, htv⟩ := dt_plain_ok (transformOf none) (specPyVal astc pairs) (by
    simp [specPyVal, plainB, plainPairsB, plainPairs_map_str pairs])
  exact ⟨reprTVal tv, by simp [reprHashable, htv]⟩

/-! ## Unfolding and cache lemmas for `hash_function` -/

theorem hashFunction_succ (fuel : Nat) (env : Env) (hook : Option Hook) (cache : Cache) (fid : Nat) :
    hashFunction (fuel+1) env hook cache fid =
      match lookupA fid cache with
      | some h => (.ok h, cache)
      | none =>
        match lookupA fid env.funcs with
        | none => (.error .keyError, cache)
        | some fd =>
          match hashedGlobalsOf (fun c g => hashFunction fuel env none c g) env fid fd hook cache with
          | (.error e, c') => (.error e, c')
          | (.ok pairs, c') =>
            match reprHashable (specPyVal (astCodeOf fd.src) pairs) none with
            | .error e => (.error e, c')
            | .ok s =>
              match lookupA fid c' with
              | some h0 => (.ok h0, c')
              | none => (.ok (hashText s), c' ++ [(fid, hashText s)]) := rfl

/-- After any successful computation, the returned cache maps the function
to the returned digest (`setdefault`, line 42). -/
theorem hashFunction_commits (fuel : Nat) (env : Env) (hook : Option Hook) (c0 : Cache)
    (fid : Nat) (h : String) (c1 : Cache)
    (hres : hashFunction fuel env hook c0 fid = (.ok h, c1)) :
    lookupA fid c1 = some h := by
  cases fuel with
  | zero => exact absurd hres (by simp [hashFunction])
  | succ fuel =>
    rw [hashFunction_succ] at hres
    cases hc : lookupA fid c0 with
    | some h0 =>
      simp only [hc, Prod.mk.injEq, Except.ok.injEq] at hres
      rw [← hres.2, hc, hres.1]
    | none =>
      simp only [hc] at hres
      cases hf : lookupA fid env.funcs with
      | none => simp only [hf] at hres; exact absurd hres (by simp)
      | some fd =>
        simp only [hf] at hres
        cases hg : hashedGlobalsOf (fun c g => hashFunction fuel env none c g) env fid fd hook c0 with
        | mk r c' =>
          rw [hg] at hres
          cases r with
          | error e => simp at hres
          | ok pairs =>
            simp only at hres
            cases hrh : reprHashable (specPyVal (astCodeOf fd.src) pairs) none with
            | error e => simp only [hrh] at hres; exact absurd hres (by simp)
            | ok s =>
              simp only [hrh] at hres
              cases hl : lookupA fid c' with
              | some h0 =>
                simp only [hl, Prod.mk.injEq, Except.ok.injEq] at hres
                rw [← hres.2, hl, hres.1]
              | none =>
                simp only [hl, Prod.mk.injEq, Except.ok.injEq] at hres
                rw [← hres.2, lookupA_append, hl]
                simp [lookupA, hres.1]

/-- C1: for every function for which identity computation succeeds,
`hash_function` is deterministic: once a run from the empty (removed) cache
produces a digest, calling again with the resulting process-wide cache
returns the same digest string unchanged, and re-running with the cache
removed again (recomputing from scratch) also yields the same result. -/
theorem c1_determinism (fuel : Nat) (env : Env) (hook : Option Hook) (fid : Nat)
    (h : String) (c1 : Cache)
    (hrun : hashFunction fuel env hook [] fid = (.ok h, c1)) :
    hashFunction fuel env hook c1 fid = (.ok h, c1) ∧
    hashFunction fuel env hook [] fid = (.ok h, c1) := by
  refine ⟨?_, hrun⟩
  have hl := hashFunction_commits fuel env hook [] fid h c1 hrun
  cases fuel with
  | zero => exact absurd hrun (by simp [hashFunction])
  | succ fuel => rw [hashFunction_succ, hl]

def fdC1 : FuncDef :=
  ⟨⟨[], "f", [], [.ret (some (.constInt 1))]⟩, "m", "f", [], [], [], .mk [] []⟩

def envC1 : Env := ⟨[(0, fdC1)], [], []⟩

def hC1 : String :=
  match (hashFunction 1 envC1 none [] 0).1 with
  | .ok h => h
  | _ => ""

def cC1 : Cache := (hashFunction 1 envC1 none [] 0).2

/-- Witness for C1 at a concrete one-function environment. -/
theorem c1_determinism_witness :
    hashFunction 1 envC1 none cC1 0 = (.ok hC1, cC1) ∧
    hashFunction 1 envC1 none [] 0 = (.ok hC1, cC1) :=
  c1_determinism 1 envC1 none 0 hC1 cC1 rfl

/-! ## C2: docstring/decorator/name insensitivity up to the digest

`hash_function` reads a function's source only through `ast_code_of`, so its
result is invariant under replacing one function's source by any source with
the same parameter list and the same docstring-stripped body.  The lemmas
below propagate this congruence through the whole recursive computation. -/

theorem isStdlib_funext (env1 env2 : Env) (hstd : env1.stdlibPaths = env2.stdlibPaths) :
    isStdlib env1 = isStdlib env2 := by
  funext m
  simp only [isStdlib, hstd]

theorem versionWalk_mods (env1 env2 : Env) (hmods : env1.modules = env2.modules)
    (parts : List String) : ∀ n, versionWalk env1 parts n = versionWalk env2 parts n := by
  intro n
  induction n with
  | zero => rfl
  | succ n ih => simp only [versionWalk, hmods, ih]

theorem versionOf_funext (env1 env2 : Env) (hmods : env1.modules = env2.modules) :
    versionOf env1 = versionOf env2 := by
  funext name
  simp only [versionOf]
  exact versionWalk_mods env1 env2 hmods (splitDotted name) (splitDotted name).length

theorem getclosurevars_congr (fd fd' : FuncDef)
    (hnl : fd.nonlocals = fd'.nonlocals) (hg : fd.globalNS = fd'.globalNS)
    (hb : fd.builtinNS = fd'.builtinNS) (hcode : fd.code = fd'.code) :
    getclosurevars fd = getclosurevars fd' := by
  simp only [getclosurevars, hnl, hg, hb, hcode]

/-- Classifying one item depends on the environment only through the module
registry, the stdlib roots, and each function's module/qualname pair. -/
theorem hashItemG_congr (rec1 rec2 : Cache → Nat → Except Err String × Cache)
    (env1 env2 : Env) (selfFid : Nat) (hook : Option Hook) (v : Value) (cache : Cache)
    (hrec : rec1 = rec2)
    (hmods : env1.modules = env2.modules)
    (hstd : env1.stdlibPaths = env2.stdlibPaths)
    (hfmq : ∀ g, Option.map (fun fd => (fd.module, fd.qualname)) (lookupA g env1.funcs)
      = Option.map (fun fd => (fd.module, fd.qualname)) (lookupA g env2.funcs)) :
    hashItemG rec1 env1 selfFid hook v cache = hashItemG rec2 env2 selfFid hook v cache := by
  have hiso := isStdlib_funext env1 env2 hstd
  have hver := versionOf_funext env1 env2 hmods
  cases v with
  | module m => simp only [hashItemG, hiso, hver]
  | cls mn qn => simp only [hashItemG, hmods, hiso, hver]
  | plain p => rfl
  | func f =>
    have h := hfmq f
    cases h1 : lookupA f env1.funcs with
    | none =>
      rw [h1] at h
      cases h2 : lookupA f env2.funcs with
      | none => simp only [hashItemG, h1, h2]
      | some fd => rw [h2] at h; simp at h
    | some fd =>
      rw [h1] at h
      cases h2 : lookupA f env2.funcs with
      | none => rw [h2] at h; simp at h
      | some fd' =>
        rw [h2] at h
        simp only [Option.map_some', Option.some.injEq, Prod.mk.injEq] at h
        simp only [hashItemG, h1, h2, h.1, h.2, hmods, hiso, hver, hrec]

theorem globalsLoop_congr (rec1 rec2 : Cache → Nat → Except Err String × Cache)
    (env1 env2 : Env) (selfFid : Nat) (hook : Option Hook)
    (hrec : rec1 = rec2)
    (hmods : env1.modules = env2.modules)
    (hstd : env1.stdlibPaths = env2.stdlibPaths)
    (hfmq : ∀ g, Option.map (fun fd => (fd.module, fd.qualname)) (lookupA g env1.funcs)
      = Option.map (fun fd => (fd.module, fd.qualname)) (lookupA g env2.funcs)) :
    ∀ (items : List (String × Value)) (acc : List (String × String)) (cache : Cache),
      globalsLoop rec1 env1 selfFid hook items acc cache
        = globalsLoop rec2 env2 selfFid hook items acc cache := by
  intro items
  induction items with
  | nil => intro acc cache; rfl
  | cons p rest ih =>
    intro acc cache
    obtain ⟨name, v⟩ := p
    simp only [globalsLoop,
      hashItemG_congr rec1 rec2 env1 env2 selfFid hook v cache hrec hmods hstd hfmq]
    rcases hres : hashItemG rec2 env2 selfFid hook v cache with ⟨r, c'⟩
    cases r with
    | error e => simp only [hres]
    | ok tok =>
      simp only [hres]
      exact ih (dictInsert acc name tok) c'

theorem hashedGlobalsOf_congr (rec1 rec2 : Cache → Nat → Except Err String × Cache)
    (env1 env2 : Env) (selfFid : Nat) (fd fd' : FuncDef) (hook : Option Hook) (cache : Cache)
    (hrec : rec1 = rec2)
    (hmods : env1.modules = env2.modules)
    (hstd : env1.stdlibPaths = env2.stdlibPaths)
    (hfmq : ∀ g, Option.map (fun fd => (fd.module, fd.qualname)) (lookupA g env1.funcs)
      = Option.map (fun fd => (fd.module, fd.qualname)) (lookupA g env2.funcs))
    (hcv : getclosurevars fd = getclosurevars fd') :
    hashedGlobalsOf rec1 env1 selfFid fd hook cache
      = hashedGlobalsOf rec2 env2 selfFid fd' hook cache := by
  simp only [hashedGlobalsOf, hcv]
  by_cases hu : (getclosurevars fd').unbound.isEmpty = true
  · rw [if_pos hu, if_pos hu]
    exact globalsLoop_congr rec1 rec2 env1 env2 selfFid hook hrec hmods hstd hfmq
      ((getclosurevars fd').nonlocals ++ (getclosurevars fd').globalVars) [] cache
  · rw [if_neg hu, if_neg hu]

/-- Replacing the function stored at one identity by a function with the
same normalized code, runtime attributes and captured namespaces changes no
`hash_function` result, at any fuel, hook, cache and start function. -/
theorem hashFunction_env_congr (env1 env2 : Env) (fid : Nat) (fd1 fd2 : FuncDef)
    (hfd1 : lookupA fid env1.funcs = some fd1)
    (hfd2 : lookupA fid env2.funcs = some fd2)
    (hlook : ∀ g, g ≠ fid → lookupA g env1.funcs = lookupA g env2.funcs)
    (hmods : env1.modules = env2.modules)
    (hstd : env1.stdlibPaths = env2.stdlibPaths)
    (hast : astCodeOf fd1.src = astCodeOf fd2.src)
    (hmod : fd1.module = fd2.module) (hqn : fd1.qualname = fd2.qualname)
    (hcv : getclosurevars fd1 = getclosurevars fd2) :
    ∀ (fuel : Nat) (hook : Option Hook) (cache : Cache) (g : Nat),
      hashFunction fuel env1 hook cache g = hashFunction fuel env2 hook cache g := by
  have hfmq : ∀ g, Option.map (fun fd => (fd.module, fd.qualname)) (lookupA g env1.funcs)
      = Option.map (fun fd => (fd.module, fd.qualname)) (lookupA g env2.funcs) := by
    intro g
    by_cases hg : g = fid
    · subst hg
      rw [hfd1, hfd2]
      simp [hmod, hqn]
    · rw [hlook g hg]
  intro fuel
  induction fuel with
  | zero => intro hook cache g; rfl
  | succ fuel ih =>
    intro hook cache g
    have hrec : (fun c g' => hashFunction fuel env1 none c g')
        = (fun c g' => hashFunction fuel env2 none c g') := by
      funext c g'
      exact ih none c g'
    rw [hashFunction_succ, hashFunction_succ]
    cases hcache : lookupA g cache with
    | some h => simp only [hcache]
    | none =>
      simp only [hcache]
      by_cases hgf : g = fid
      · subst hgf
        simp only [hfd1, hfd2]
        rw [hashedGlobalsOf_congr _ _ env1 env2 g fd1 fd2 hook cache hrec hmods hstd hfmq hcv,
          hast]
      · rw [hlook g hgf]
        cases hgl : lookupA g env2.funcs with
        | none => simp only [hgl]
        | some fd =>
          simp only [hgl]
          rw [hashedGlobalsOf_congr _ _ env1 env2 g fd fd hook cache hrec hmods hstd hfmq rfl]

/-- C2: `hash_function` is insensitive to docstrings, decorators and the
function's own syntactic name, up to the digest.  Two functions stored at
the same identity in two otherwise equal environments, whose parsed sources
have identical parameter lists and statement bodies that agree after
docstring removal (their own leading docstrings and those of nested
definitions) — hence bodies differing only in the presence or content of
docstrings — and whose decorator lines and syntactic names are arbitrary,
receive the same digest (and leave the same cache) at every fuel, hook and
starting cache.  Sources differing only in comments or incidental
whitespace parse to the same `FuncSrc` and are covered a fortiori. -/
theorem c2_hash_insensitive (env1 env2 : Env) (fid : Nat) (fd1 fd2 : FuncDef)
    (fuel : Nat) (hook : Option Hook) (cache : Cache)
    (hfd1 : lookupA fid env1.funcs = some fd1)
    (hfd2 : lookupA fid env2.funcs = some fd2)
    (hlook : ∀ g, g ≠ fid → lookupA g env1.funcs = lookupA g env2.funcs)
    (hmods : env1.modules = env2.modules)
    (hstd : env1.stdlibPaths = env2.stdlibPaths)
    (hargs : fd1.src.args = fd2.src.args)
    (hbody : stripBody fd1.src.body = stripBody fd2.src.body)
    (hmod : fd1.module = fd2.module) (hqn : fd1.qualname = fd2.qualname)
    (hnl : fd1.nonlocals = fd2.nonlocals) (hgns : fd1.globalNS = fd2.globalNS)
    (hbns : fd1.builtinNS = fd2.builtinNS) (hcode : fd1.code = fd2.code) :
    hashFunction fuel env1 hook cache fid = hashFunction fuel env2 hook cache fid := by
  have hast : astCodeOf fd1.src = astCodeOf fd2.src := by
    simp only [astCodeOf, hargs, hbody]
  exact hashFunction_env_congr env1 env2 fid fd1 fd2 hfd1 hfd2 hlook hmods hstd hast
    hmod hqn (getclosurevars_congr fd1 fd2 hnl hgns hbns hcode) fuel hook cache fid

def fdC2a : FuncDef := ⟨⟨[], "f", [], [.ret (some (.constInt 1))]⟩,
  "m", "f", [], [], [], .mk [] []⟩

def fdC2b : FuncDef := ⟨⟨["deco"], "g", [],
  [.exprS (.constStr "Docstring."), .ret (some (.constInt 1))]⟩,
  "m", "f", [], [], [], .mk [] []⟩

def envC2a : Env := ⟨[(70, fdC2a)], [], []⟩

def envC2b : Env := ⟨[(70, fdC2b)], [], []⟩

/-- Witness for C2 mirroring `test_docstring`: `def f(): return 1` versus a
decorated, differently-named definition with a docstring hash to the same
digest, and the computation succeeds. -/
theorem c2_hash_insensitive_witness :
    hashFunction 1 envC2a none [] 70 = hashFunction 1 envC2b none [] 70 ∧
    ∃ h c, hashFunction 1 envC2a none [] 70 = (.ok h, c) :=
  ⟨c2_hash_insensitive envC2a envC2b 70 fdC2a fdC2b 1 none [] rfl rfl
      (fun g hg => by
        have h70 : ((70 : Nat) == g) = false := beq_eq_false_iff_ne.mpr (fun h => hg h.symm)
        simp [envC2a, envC2b, lookupA, h70])
      rfl rfl rfl rfl rfl rfl rfl rfl rfl rfl,
    ⟨_, _, rfl⟩⟩

/-! ## C3: termination and self-reference -/

/-- Nontermination in the fuel model: every recursion budget is exhausted
(the run aborts with the model's `RecursionError`), at every depth. -/
def DivergesFrom (env : Env) (fid : Nat) : Prop :=
  ∀ fuel, hashFunction fuel env none [] fid = (.error .outOfFuel, [])

def fdC3a : FuncDef := ⟨⟨[], "a", [], [.ret (some (.call (.nameE "b") []))]⟩, "m", "a",
  [], [("b", .func 41)], [], .mk ["b"] []⟩

def fdC3b : FuncDef := ⟨⟨[], "b", [], [.ret (some (.call (.nameE "a") []))]⟩, "m", "b",
  [], [("a", .func 40)], [], .mk ["a"] []⟩

/-- Two functions in an unversioned module, each reading the other as a
global: an indirect dependency cycle with no direct self-loop. -/
def envC3x : Env := ⟨[(40, fdC3a), (41, fdC3b)], [("m", ⟨"m", "/x/m.py", none⟩)], []⟩

theorem c3x_diverges : ∀ fuel,
    hashFunction fuel envC3x none [] 40 = (.error .outOfFuel, []) ∧
    hashFunction fuel envC3x none [] 41 = (.error .outOfFuel, []) := by
  intro fuel
  induction fuel with
  | zero => exact ⟨rfl, rfl⟩
  | succ n ih =>
    obtain ⟨ih1, ih2⟩ := ih
    simp only [envC3x, fdC3a, fdC3b] at ih1 ih2
    constructor
    · rw [hashFunction_succ]
      simp [hashedGlobalsOf, getclosurevars, resolveLoop, collectCode, collectRev,
        globalsLoop, hashItemG, lookupA, envC3x, fdC3a, fdC3b, versionOf, versionWalk,
        splitDotted, splitDotAux, joinDots, isStdlib, startsWithB, isPrefixL,
        dictInsert, assocSet, setInsert, wrapErr, isCodehash, ih2]
    · rw [hashFunction_succ]
      simp [hashedGlobalsOf, getclosurevars, resolveLoop, collectCode, collectRev,
        globalsLoop, hashItemG, lookupA, envC3x, fdC3a, fdC3b, versionOf, versionWalk,
        splitDotted, splitDotAux, joinDots, isStdlib, startsWithB, isPrefixL,
        dictInsert, assocSet, setInsert, wrapErr, isCodehash, ih1]

/-- Counterexample to C3 as stated: a function that depends on itself only
indirectly (through a second function that reads it back) makes
`hash_function` recurse without bound — the sentinel short-circuit of line
97 fires only when the dependency is the very function being hashed, so the
computation exhausts every recursion budget instead of terminating. -/
theorem c3_counterexample : DivergesFrom envC3x 40 :=
  fun fuel => (c3x_diverges fuel).1

/-- C3 (amended): termination holds when the self-dependence is direct.  A
function whose sole captured dependency is itself (bound under any name, as
a closure cell or a global) terminates at every remaining recursion budget
— even zero — because the self-reference short-circuits to the fixed
sentinel token `function:self` instead of recursing, and the resulting
identity is the same at every budget (stable). -/
theorem c3_direct_self (env : Env) (fid : Nat) (fd : FuncDef) (mi : ModuleInfo)
    (name : String) (hook : Option Hook)
    (hfd : lookupA fid env.funcs = some fd)
    (hub : (getclosurevars fd).unbound = [])
    (hitems : (getclosurevars fd).nonlocals ++ (getclosurevars fd).globalVars =
      [(name, Value.func fid)])
    (hmod : lookupA fd.module env.modules = some mi)
    (hstd : isStdlib env mi = false)
    (hver : versionOf env mi.name = .ok none) :
    ∃ h, ∀ fuel,
      hashFunction (fuel+1) env hook [] fid = (.ok h, [(fid, h)]) ∧
      (hashedGlobalsOf (fun c g => hashFunction fuel env none c g) env fid fd hook []).1 =
        .ok [(name, "function:self")] := by
  obtain ⟨s, hs⟩ := reprHashable_spec_ok (astCodeOf fd.src) [(name, "function:self")]
  refine ⟨hashText s, fun fuel => ?_⟩
  have hglob : ∀ rec : Cache → Nat → Except Err String × Cache,
      hashedGlobalsOf rec env fid fd hook [] = (.ok [(name, "function:self")], []) := by
    intro rec
    simp only [hashedGlobalsOf, hub, List.isEmpty_nil, if_true, hitems]
    simp only [globalsLoop, hashItemG, hfd, hmod, hstd, hver, beq_self_eq_true, if_true]
    simp [dictInsert, lookupA]
  constructor
  · rw [hashFunction_succ]
    simp only [show lookupA fid ([] : Cache) = none from rfl, hfd,
      hglob (fun c g => hashFunction fuel env none c g), hs]
    simp [lookupA]
  · rw [hglob (fun c g => hashFunction fuel env none c g)]

def fdC3w : FuncDef := ⟨⟨[], "fact", ["n"],
  [.ret (some (.call (.nameE "fact") [.nameE "n"]))]⟩, "mw", "fact",
  [], [("fact", .func 9)], [], .mk ["fact"] []⟩

def envC3w : Env := ⟨[(9, fdC3w)], [("mw", ⟨"mw", "/x/mw.py", none⟩)], []⟩

/-- Witness for the amended C3 at a concrete directly-recursive function. -/
theorem c3_direct_self_witness :
    ∃ h, ∀ fuel,
      hashFunction (fuel+1) envC3w none [] 9 = (.ok h, [(9, h)]) ∧
      (hashedGlobalsOf (fun c g => hashFunction fuel envC3w none c g) envC3w 9 fdC3w none []).1 =
        .ok [("fact", "function:self")] :=
  c3_direct_self envC3w 9 fdC3w ⟨"mw", "/x/mw.py", none⟩ "fact" none rfl rfl rfl rfl rfl rfl

/-! ## Resolver lemmas -/

theorem mem_setInsert_self (l : List String) (x : String) : x ∈ setInsert l x := by
  unfold setInsert
  by_cases h : l.contains x = true
  · rw [if_pos h]
    simpa using h
  · rw [if_neg h]
    simp

theorem mem_setInsert_of_mem (l : List String) (x y : String) (h : y ∈ l) :
    y ∈ setInsert l x := by
  unfold setInsert
  by_cases hc : l.contains x = true
  · rw [if_pos hc]
    exact h
  · rw [if_neg hc]
    simp [h]

theorem resolveLoop_unbound_mono (gNS bNS : List (String × Value)) :
    ∀ (names : List String) (gA bA : List (String × Value)) (uA : List String) (y : String),
      y ∈ uA → y ∈ (resolveLoop gNS bNS names gA bA uA).2.2 := by
  intro names
  induction names with
  | nil => intro gA bA uA y hy; simpa [resolveLoop] using hy
  | cons n rest ih =>
    intro gA bA uA y hy
    cases hg : lookupA n gNS with
    | some v => simp only [resolveLoop, hg]; exact ih _ _ _ y hy
    | none =>
      cases hb : lookupA n bNS with
      | some v => simp only [resolveLoop, hg, hb]; exact ih _ _ _ y hy
      | none =>
        simp only [resolveLoop, hg, hb]
        exact ih _ _ _ y (mem_setInsert_of_mem uA n y hy)

theorem resolveLoop_unbound_mem (gNS bNS : List (String × Value)) (x : String)
    (hg : lookupA x gNS = none) (hb : lookupA x bNS = none) :
    ∀ (names : List String) (gA bA : List (String × Value)) (uA : List String),
      x ∈ names → x ∈ (resolveLoop gNS bNS names gA bA uA).2.2 := by
  intro names
  induction names with
  | nil => intro gA bA uA hx; simp at hx
  | cons n rest ih =>
    intro gA bA uA hx
    rcases List.mem_cons.mp hx with rfl | hx'
    · simp only [resolveLoop, hg, hb]
      exact resolveLoop_unbound_mono gNS bNS rest gA bA (setInsert uA x) x
        (mem_setInsert_self uA x)
    · cases hgn : lookupA n gNS with
      | some v => simp only [resolveLoop, hgn]; exact ih _ _ _ hx'
      | none =>
        cases hbn : lookupA n bNS with
        | some v => simp only [resolveLoop, hgn, hbn]; exact ih _ _ _ hx'
        | none => simp only [resolveLoop, hgn, hbn]; exact ih _ _ _ hx'

/-- C7: a function whose code reads a name bound neither as a closure cell
variable, nor in the module globals, nor in builtins, makes `hash_function`
fail with the internal-consistency assertion (line 78), an error that is
not of the classified `CodehashError` kind — regardless of any hook and
before any dependency is hashed. -/
theorem c7_unbound_assertion (env : Env) (fuel : Nat) (hook : Option Hook) (cache : Cache)
    (fid : Nat) (fd : FuncDef) (x : String)
    (hc : lookupA fid cache = none)
    (hfd : lookupA fid env.funcs = some fd)
    (hx : x ∈ collectCode fd.code)
    (hg : lookupA x fd.globalNS = none)
    (hb : lookupA x fd.builtinNS = none) :
    hashFunction (fuel+1) env hook cache fid = (.error .assertionFailed, cache) ∧
    isCodehash .assertionFailed = false := by
  refine ⟨?_, rfl⟩
  have hmem : x ∈ (getclosurevars fd).unbound := by
    simp only [getclosurevars]
    exact resolveLoop_unbound_mem fd.globalNS fd.builtinNS x hg hb
      (collectCode fd.code) [] [] [] hx
  have hne : (getclosurevars fd).unbound.isEmpty = false := by
    cases hu : (getclosurevars fd).unbound with
    | nil => rw [hu] at hmem; simp at hmem
    | cons a l => simp
  rw [hashFunction_succ]
  simp only [hc, hfd, hashedGlobalsOf, hne, Bool.false_eq_true, if_false]

def fdC7 : FuncDef := ⟨⟨[], "u", [], [.exprS (.nameE "x")]⟩, "m", "u",
  [], [], [], .mk ["x"] []⟩

def envC7 : Env := ⟨[(3, fdC7)], [], []⟩

/-- Witness for C7 mirroring `test_unbound`. -/
theorem c7_unbound_assertion_witness :
    hashFunction 1 envC7 none [] 3 = (.error .assertionFailed, []) ∧
    isCodehash .assertionFailed = false :=
  c7_unbound_assertion envC7 0 none [] 3 fdC7 "x" rfl rfl (by decide) rfl rfl

/-! ## C6 and C10: classified failures and their recovery -/

/-- A function whose single dependency is a generic value that serializes
successfully hashes successfully (and caches the result). -/
theorem hashFunction_single_plain_ok (env : Env) (fuel : Nat) (cache : Cache) (fid : Nat)
    (fd : FuncDef) (name : String) (p : PyVal) (hook : Option Hook) (rs : String)
    (hc : lookupA fid cache = none)
    (hfd : lookupA fid env.funcs = some fd)
    (hub : (getclosurevars fd).unbound = [])
    (hitems : (getclosurevars fd).nonlocals ++ (getclosurevars fd).globalVars =
      [(name, Value.plain p)])
    (hrepr : reprHashable p hook = .ok rs) :
    ∃ h c', hashFunction (fuel+1) env hook cache fid = (.ok h, c') := by
  obtain ⟨s, hs⟩ := reprHashable_spec_ok (astCodeOf fd.src)
    [(name, "composite:" ++ hashText rs)]
  refine ⟨hashText s, cache ++ [(fid, hashText s)], ?_⟩
  rw [hashFunction_succ]
  simp only [hc, hfd, hashedGlobalsOf, hub, List.isEmpty_nil, if_true, hitems]
  simp only [globalsLoop, hashItemG, hrepr]
  simp only [dictInsert, lookupA, Option.isSome_none, Bool.false_eq_true, if_false,
    List.nil_append, hs, hc]

/-- C6: a function closing over a plain-class instance with no
`__codehash__` method fails, when called without a hook, with the
classified failure carrying the offending function, dependency name and
value, and the process cache is left untouched; calling again with a hook
that returns a token for the instance, or against the same function whose
instance now carries a `__codehash__` method, succeeds. -/
theorem c6_unhashable_recoverable (env env2 : Env) (fuel fuel2 fuel3 : Nat) (cache : Cache)
    (fid : Nat) (fd fd2 : FuncDef) (name : String) (i : Nat) (hk : Hook) (tok tok2 : String)
    (hc : lookupA fid cache = none)
    (hfd : lookupA fid env.funcs = some fd)
    (hub : (getclosurevars fd).unbound = [])
    (hitems : (getclosurevars fd).nonlocals ++ (getclosurevars fd).globalVars =
      [(name, Value.plain (.objV i none))])
    (hhook : hk (.objV i none) = some tok)
    (hfd2 : lookupA fid env2.funcs = some fd2)
    (hub2 : (getclosurevars fd2).unbound = [])
    (hitems2 : (getclosurevars fd2).nonlocals ++ (getclosurevars fd2).globalVars =
      [(name, Value.plain (.objV i (some tok2)))]) :
    hashFunction (fuel+1) env none cache fid =
      (.error (.codehashIn fid name (.plain (.objV i none))), cache) ∧
    (∃ h c', hashFunction (fuel2+1) env (some hk) cache fid = (.ok h, c')) ∧
    (∃ h c', hashFunction (fuel3+1) env2 none cache fid = (.ok h, c')) := by
  refine ⟨?_, ?_, ?_⟩
  · rw [hashFunction_succ]
    simp only [hc, hfd, hashedGlobalsOf, hub, List.isEmpty_nil, if_true, hitems]
    simp only [globalsLoop, hashItemG,
      show reprHashable (.objV i none) none = .error (.codehashUnknown (.objV i none)) from rfl]
    simp [wrapErr, isCodehash]
  · exact hashFunction_single_plain_ok env fuel2 cache fid fd name (.objV i none) (some hk)
      (reprTVal (.hashedT tok)) hc hfd hub hitems
      (by simp [reprHashable, deepTransform, sizeP, deepTransformF, transformOf,
        codehashAttr, hhook])
  · exact hashFunction_single_plain_ok env2 fuel3 cache fid fd2 name (.objV i (some tok2)) none
      (reprTVal (.hashedT tok2)) hc hfd2 hub2 hitems2
      (by simp [reprHashable, deepTransform, sizeP, deepTransformF, transformOf, codehashAttr])

def fdC6 : FuncDef := ⟨⟨[], "f", [], [.ret (some (.nameE "c"))]⟩, "m", "f",
  [], [("c", .plain (.objV 11 none))], [], .mk ["c"] []⟩

def fdC6b : FuncDef := ⟨⟨[], "f", [], [.ret (some (.nameE "c"))]⟩, "m", "f",
  [], [("c", .plain (.objV 11 (some "mtok")))], [], .mk ["c"] []⟩

def envC6 : Env := ⟨[(12, fdC6)], [], []⟩

def envC6b : Env := ⟨[(12, fdC6b)], [], []⟩

/-- Witness for C6 mirroring `test_unhashable`, `test_hook` and
`test_magic_hook`. -/
theorem c6_unhashable_recoverable_witness :
    hashFunction 1 envC6 none [] 12 =
      (.error (.codehashIn 12 "c" (.plain (.objV 11 none))), []) ∧
    (∃ h c', hashFunction 1 envC6 (some (fun _ => some "htok")) [] 12 = (.ok h, c')) ∧
    (∃ h c', hashFunction 1 envC6b none [] 12 = (.ok h, c')) :=
  c6_unhashable_recoverable envC6 envC6b 0 0 0 [] 12 fdC6 fdC6b "c" 11
    (fun _ => some "htok") "htok" "mtok" rfl rfl rfl rfl rfl rfl rfl rfl

/-- C10: the caller's hook is not forwarded into the recursive
`hash_function(obj)` call of line 97.  When the top-level function's
dependency is a function in an unversioned module, and that dependency
function itself closes over a generic value that only the hook could
tokenize, the whole computation fails with the classified failure naming
the dependency function — even though calling `hash_function` on the
dependency directly with the same hook succeeds. -/
theorem c10_hook_not_propagated (env : Env) (fuel fuel2 : Nat) (fid g : Nat)
    (fd fdg : FuncDef) (mi : ModuleInfo) (gname oname : String) (i : Nat)
    (hk : Hook) (tok : String)
    (hne : (g == fid) = false)
    (hfd : lookupA fid env.funcs = some fd)
    (hub : (getclosurevars fd).unbound = [])
    (hitems : (getclosurevars fd).nonlocals ++ (getclosurevars fd).globalVars =
      [(gname, Value.func g)])
    (hg : lookupA g env.funcs = some fdg)
    (hmod : lookupA fdg.module env.modules = some mi)
    (hstd : isStdlib env mi = false)
    (hver : versionOf env mi.name = .ok none)
    (hub2 : (getclosurevars fdg).unbound = [])
    (hitems2 : (getclosurevars fdg).nonlocals ++ (getclosurevars fdg).globalVars =
      [(oname, Value.plain (.objV i none))])
    (hhook : hk (.objV i none) = some tok) :
    hashFunction (fuel+2) env (some hk) [] fid =
      (.error (.codehashIn fid gname (.func g)), []) ∧
    (∃ h c', hashFunction (fuel2+1) env (some hk) [] g = (.ok h, c')) := by
  constructor
  · have hinner : hashFunction (fuel+1) env none [] g =
        (.error (.codehashIn g oname (.plain (.objV i none))), []) := by
      rw [hashFunction_succ]
      simp only [show lookupA g ([] : Cache) = none from rfl, hg,
        hashedGlobalsOf, hub2, List.isEmpty_nil, if_true, hitems2]
      simp only [globalsLoop, hashItemG,
        show reprHashable (.objV i none) none = .error (.codehashUnknown (.objV i none)) from rfl]
      simp [wrapErr, isCodehash]
    rw [hashFunction_succ]
    simp only [show lookupA fid ([] : Cache) = none from rfl, hfd,
      hashedGlobalsOf, hub, List.isEmpty_nil, if_true, hitems]
    simp only [globalsLoop, hashItemG, hg, hmod, hstd, hver, hne, Bool.false_eq_true,
      if_false, hinner]
    simp [wrapErr, isCodehash]
  · exact hashFunction_single_plain_ok env fuel2 [] g fdg oname (.objV i none) (some hk)
      (reprTVal (.hashedT tok)) rfl hg hub2 hitems2
      (by simp [reprHashable, deepTransform, sizeP, deepTransformF, transformOf,
        codehashAttr, hhook])

def fdC10g : FuncDef := ⟨⟨[], "g", [], [.ret (some (.nameE "c"))]⟩, "mx", "g",
  [], [("c", .plain (.objV 13 none))], [], .mk ["c"] []⟩

def fdC10f : FuncDef := ⟨⟨[], "f", [], [.ret (some (.call (.nameE "g") []))]⟩, "mx", "f",
  [], [("g", .func 21)], [], .mk ["g"] []⟩

def envC10 : Env := ⟨[(20, fdC10f), (21, fdC10g)], [("mx", ⟨"mx", "/x/mx.py", none⟩)], []⟩

/-- Witness for C10 at a concrete two-function environment. -/
theorem c10_hook_not_propagated_witness :
    hashFunction 2 envC10 (some (fun _ => some "htok")) [] 20 =
      (.error (.codehashIn 20 "g" (.func 21)), []) ∧
    (∃ h c', hashFunction 1 envC10 (some (fun _ => some "htok")) [] 21 = (.ok h, c')) :=
  c10_hook_not_propagated envC10 0 0 20 21 fdC10f fdC10g ⟨"mx", "/x/mx.py", none⟩
    "g" "c" 13 (fun _ => some "htok") "htok" rfl rfl rfl rfl rfl rfl rfl rfl rfl rfl rfl

/-! ## C5: what reaches the dependency map -/

theorem lookupA_not_mem_keys {α : Type} (k : String) (l : List (String × α))
    (h : lookupA k l = none) : k ∉ l.map Prod.fst := by
  intro hmem
  have := lookupA_isSome_of_mem_keys k l hmem
  rw [h] at this
  simp at this

theorem lookupA_dictInsert_isSome_mono {κ α : Type} [BEq κ] [LawfulBEq κ]
    (l : List (κ × α)) (n x : κ) (v : α) (h : (lookupA x l).isSome) :
    (lookupA x (dictInsert l n v)).isSome := by
  by_cases hx : n = x
  · subst hx
    exact lookupA_dictInsert_self l n v
  · rw [lookupA_dictInsert_ne l n x v hx]
    exact h

theorem resolveLoop_globals_not_mem (gNS bNS : List (String × Value)) (x : String)
    (hx : lookupA x gNS = none) :
    ∀ (names : List String) (gA bA : List (String × Value)) (uA : List String),
      lookupA x gA = none → lookupA x (resolveLoop gNS bNS names gA bA uA).1 = none := by
  intro names
  induction names with
  | nil => intro gA bA uA hga; simpa [resolveLoop] using hga
  | cons n rest ih =>
    intro gA bA uA hga
    cases hgn : lookupA n gNS with
    | some v =>
      simp only [resolveLoop, hgn]
      have hne : n ≠ x := by
        intro he
        subst he
        rw [hgn] at hx
        exact absurd hx (by simp)
      exact ih _ _ _ (by rw [lookupA_dictInsert_ne gA n x v hne]; exact hga)
    | none =>
      cases hbn : lookupA n bNS with
      | some v => simp only [resolveLoop, hgn, hbn]; exact ih _ _ _ hga
      | none => simp only [resolveLoop, hgn, hbn]; exact ih _ _ _ hga

theorem globalsLoop_not_mem (rec : Cache → Nat → Except Err String × Cache) (env : Env)
    (selfFid : Nat) (hook : Option Hook) (x : String) :
    ∀ (items : List (String × Value)) (acc : List (String × String)) (cache : Cache)
      (res : List (String × String)) (c' : Cache),
      x ∉ items.map Prod.fst → lookupA x acc = none →
      globalsLoop rec env selfFid hook items acc cache = (.ok res, c') →
      lookupA x res = none := by
  intro items
  induction items with
  | nil =>
    intro acc cache res c' _ hacc hres
    simp only [globalsLoop, Prod.mk.injEq, Except.ok.injEq] at hres
    rw [← hres.1]
    exact hacc
  | cons p rest ih =>
    intro acc cache res c' hk hacc hres
    obtain ⟨n, v⟩ := p
    have hne : n ≠ x := by
      intro he
      subst he
      simp at hk
    simp only [globalsLoop] at hres
    cases hi : hashItemG rec env selfFid hook v cache with
    | mk r c2 =>
      rw [hi] at hres
      cases r with
      | error e => simp at hres
      | ok tok =>
        simp only at hres
        refine ih _ _ _ _ ?_ ?_ hres
        · intro hmem
          exact hk (by simp [List.mem_cons] at hmem ⊢; exact Or.inr hmem)
        · rw [lookupA_dictInsert_ne acc n x tok hne]
          exact hacc

theorem globalsLoop_mem_isSome (rec : Cache → Nat → Except Err String × Cache) (env : Env)
    (selfFid : Nat) (hook : Option Hook) (n : String) :
    ∀ (items : List (String × Value)) (acc : List (String × String)) (cache : Cache)
      (res : List (String × String)) (c' : Cache),
      (n ∈ items.map Prod.fst ∨ (lookupA n acc).isSome) →
      globalsLoop rec env selfFid hook items acc cache = (.ok res, c') →
      (lookupA n res).isSome := by
  intro items
  induction items with
  | nil =>
    intro acc cache res c' hn hres
    simp only [globalsLoop, Prod.mk.injEq, Except.ok.injEq] at hres
    rcases hn with hn | hn
    · simp at hn
    · rw [← hres.1]
      exact hn
  | cons p rest ih =>
    intro acc cache res c' hn hres
    obtain ⟨m, v⟩ := p
    simp only [globalsLoop] at hres
    cases hi : hashItemG rec env selfFid hook v cache with
    | mk r c2 =>
      rw [hi] at hres
      cases r with
      | error e => simp at hres
      | ok tok =>
        simp only at hres
        by_cases hnm : m = n
        · subst hnm
          exact ih _ _ _ _ (Or.inr (lookupA_dictInsert_self acc m tok)) hres
        · rcases hn with hn | hn
          · simp only [List.map_cons, List.mem_cons] at hn
            rcases hn with hn | hn
            · exact absurd hn.symm hnm
            · exact ih _ _ _ _ (Or.inl hn) hres
          · exact ih _ _ _ _
              (Or.inr (lookupA_dictInsert_isSome_mono acc m n tok hn)) hres

/-- C5 (amended): the dependency map is built from the closure cells and the
module-global resolutions only.  A name the code reads that resolves in the
builtin namespace (and not as a cell or module global) is checked for
boundness but contributes nothing: it never appears in the map.  Every name
appearing among the chained nonlocal and global items does get a token. -/
theorem c5_builtins_excluded (rec : Cache → Nat → Except Err String × Cache) (env : Env)
    (fid : Nat) (fd : FuncDef) (hook : Option Hook) (cache : Cache)
    (res : List (String × String)) (c' : Cache)
    (hres : hashedGlobalsOf rec env fid fd hook cache = (.ok res, c')) :
    (∀ x bv, lookupA x fd.nonlocals = none → lookupA x fd.globalNS = none →
      lookupA x fd.builtinNS = some bv → lookupA x res = none) ∧
    (∀ n, n ∈ ((getclosurevars fd).nonlocals ++ (getclosurevars fd).globalVars).map Prod.fst →
      (lookupA n res).isSome) := by
  simp only [hashedGlobalsOf] at hres
  by_cases hub : (getclosurevars fd).unbound.isEmpty = true
  · rw [if_pos hub] at hres
    constructor
    · intro x bv hnl hg _
      refine globalsLoop_not_mem rec env fid hook x _ [] cache res c' ?_ rfl hres
      rw [List.map_append]
      intro hmem
      rcases List.mem_append.mp hmem with hm | hm
      · exact lookupA_not_mem_keys x fd.nonlocals hnl hm
      · have : lookupA x (getclosurevars fd).globalVars = none := by
          simp only [getclosurevars]
          exact resolveLoop_globals_not_mem fd.globalNS fd.builtinNS x hg
            (collectCode fd.code) [] [] [] rfl
        exact lookupA_not_mem_keys x _ this hm
    · intro n hn
      exact globalsLoop_mem_isSome rec env fid hook n _ [] cache res c' (Or.inl hn) hres
  · rw [if_neg hub] at hres
    simp at hres

def fdC5a : FuncDef := ⟨⟨[], "f", [], [.exprS (.nameE "int")]⟩, "m", "f",
  [], [], [("int", .cls "builtins" "int")], .mk ["int"] []⟩

def fdC5b : FuncDef := ⟨⟨[], "f", [], [.exprS (.nameE "int")]⟩, "m", "f",
  [], [], [("int", .cls "builtins" "intB")], .mk ["int"] []⟩

def envC5a : Env := ⟨[(30, fdC5a)], [], []⟩

def envC5b : Env := ⟨[(30, fdC5b)], [], []⟩

/-- Counterexample to C5 as stated: a function whose code reads the name
`int`, resolved from the builtin namespace.  The dependency map comes out
empty — the builtin-resolved value is not included, not hashed — and
changing that builtin value leaves the computed identity bit-for-bit
unchanged, so the value does not contribute to the identity. -/
theorem c5_counterexample :
    "int" ∈ collectCode fdC5a.code ∧
    lookupA "int" fdC5a.builtinNS = some (Value.cls "builtins" "int") ∧
    lookupA "int" fdC5b.builtinNS = some (Value.cls "builtins" "intB") ∧
    Value.cls "builtins" "int" ≠ Value.cls "builtins" "intB" ∧
    (hashedGlobalsOf (fun c g => hashFunction 0 envC5a none c g) envC5a 30 fdC5a none []).1 =
      .ok [] ∧
    (hashFunction 1 envC5a none [] 30).1 = (hashFunction 1 envC5b none [] 30).1 := by
  refine ⟨by decide, rfl, rfl, ?_, rfl, rfl⟩
  intro h
  injection h with h1 h2
  exact absurd h2 (by decide)

def fdC5w : FuncDef := ⟨⟨[], "f", [], [.exprS (.call (.nameE "int") [.nameE "d"])]⟩, "m", "f",
  [], [("d", .plain (.intV 5))], [("int", .cls "builtins" "int")], .mk ["int", "d"] []⟩

def envC5w : Env := ⟨[(31, fdC5w)], [], []⟩

/-- Witness for the amended C5: the builtin-resolved `int` is absent from
the dependency map while the module-global `d` is present. -/
theorem c5_builtins_excluded_witness :
    lookupA "int" [("d", "composite:sha1:5")] = none ∧
    (lookupA "d" [("d", "composite:sha1:5")]).isSome :=
  ⟨(c5_builtins_excluded (fun c g => hashFunction 0 envC5w none c g) envC5w 31 fdC5w none []
      [("d", "composite:sha1:5")] [] rfl).1 "int" (Value.cls "builtins" "int") rfl rfl rfl,
   (c5_builtins_excluded (fun c g => hashFunction 0 envC5w none c g) envC5w 31 fdC5w none []
      [("d", "composite:sha1:5")] [] rfl).2 "d" (by decide)⟩

/-! ## C8: module dependency tokens -/

/-- Version discovery as the specification words it: walk the module's
dotted name from most to least specific and return the first non-empty
version attribute found on any ancestor module present in the
resolved-module registry. -/
def specWalk (env : Env) (parts : List String) : Nat → Option String
  | 0 => none
  | n+1 =>
    match lookupA (joinDots (parts.take (n + 1))) env.modules with
    | some mi =>
      match mi.version with
      | some ver => if ver = "" then specWalk env parts n else some ver
      | none => specWalk env parts n
    | none => specWalk env parts n

def specModuleVersion (env : Env) (name : String) : Option String :=
  specWalk env (splitDotted name) (splitDotted name).length

/-- When every dotted prefix is present in the registry, the source's
`version_of` loop computes exactly the specification's walk. -/
theorem versionWalk_eq_specWalk (env : Env) (parts : List String) :
    ∀ n, (∀ i, 1 ≤ i → i ≤ n → (lookupA (joinDots (parts.take i)) env.modules).isSome) →
      versionWalk env parts n = .ok (specWalk env parts n) := by
  intro n
  induction n with
  | zero => intro _; rfl
  | succ n ih =>
    intro hreg
    obtain ⟨mi, hmi⟩ := Option.isSome_iff_exists.mp
      (hreg (n+1) (by omega) (by omega))
    have ihr := ih (fun i h1 h2 => hreg i h1 (by omega))
    cases hv : mi.version with
    | some ver =>
      by_cases he : ver = ""
      · simp only [versionWalk, specWalk, hmi, hv, he, if_true, ihr]
      · simp only [versionWalk, specWalk, hmi, hv, he, if_false]
    | none => simp only [versionWalk, specWalk, hmi, hv, ihr]

/-- C8: a captured module dependency is tokenized as
`name(stdlib)` when its file lies under a standard-library root; otherwise
as `name(version)` with the version found by the most-to-least-specific
walk over the registry; and when the walk finds no non-empty version
anywhere in the chain, the classification is the classified hashing
failure carrying the function, the dependency name and the module value. -/
theorem c8_module_tokens (rec : Cache → Nat → Except Err String × Cache) (env : Env)
    (fid : Nat) (fd : FuncDef) (hook : Option Hook) (cache : Cache)
    (name : String) (m : ModuleInfo)
    (hub : (getclosurevars fd).unbound = [])
    (hitems : (getclosurevars fd).nonlocals ++ (getclosurevars fd).globalVars =
      [(name, Value.module m)])
    (hreg : ∀ i, 1 ≤ i → i ≤ (splitDotted m.name).length →
      (lookupA (joinDots ((splitDotted m.name).take i)) env.modules).isSome) :
    hashedGlobalsOf rec env fid fd hook cache =
      (if isStdlib env m then (.ok [(name, m.name ++ "(stdlib)")], cache)
       else
         match specModuleVersion env m.name with
         | some ver => (.ok [(name, m.name ++ "(" ++ ver ++ ")")], cache)
         | none => (.error (.codehashIn fid name (.module m)), cache)) := by
  have hver : versionOf env m.name = .ok (specModuleVersion env m.name) :=
    versionWalk_eq_specWalk env (splitDotted m.name) (splitDotted m.name).length hreg
  simp only [hashedGlobalsOf, hub, List.isEmpty_nil, if_true, hitems]
  by_cases hstd : isStdlib env m = true
  · rw [if_pos hstd]
    simp only [globalsLoop, hashItemG, hstd, if_true]
    simp [dictInsert, lookupA]
  · rw [if_neg hstd]
    simp only [Bool.not_eq_true] at hstd
    cases hsv : specModuleVersion env m.name with
    | some ver =>
      rw [hsv] at hver
      simp only [globalsLoop, hashItemG, hstd, Bool.false_eq_true, if_false, hver]
      simp [dictInsert, lookupA]
    | none =>
      rw [hsv] at hver
      simp only [globalsLoop, hashItemG, hstd, Bool.false_eq_true, if_false, hver]
      simp [wrapErr, isCodehash]

def miC8s : ModuleInfo := ⟨"os", "/usr/lib/py/os.py", none⟩

def fdC8s : FuncDef := ⟨⟨[], "f", [], [.exprS (.nameE "os")]⟩, "m", "f",
  [], [("os", .module miC8s)], [], .mk ["os"] []⟩

def envC8s : Env := ⟨[(50, fdC8s)], [("os", miC8s)], ["/usr/lib/py"]⟩

def miC8v : ModuleInfo := ⟨"np", "/site/np.py", some "1.2"⟩

def fdC8v : FuncDef := ⟨⟨[], "f", [], [.exprS (.nameE "np")]⟩, "m", "f",
  [], [("np", .module miC8v)], [], .mk ["np"] []⟩

def envC8v : Env := ⟨[(51, fdC8v)], [("np", miC8v)], []⟩

def miC8u : ModuleInfo := ⟨"pk", "/site/pk.py", none⟩

def fdC8u : FuncDef := ⟨⟨[], "f", [], [.exprS (.nameE "pk")]⟩, "m", "f",
  [], [("pk", .module miC8u)], [], .mk ["pk"] []⟩

def envC8u : Env := ⟨[(52, fdC8u)], [("pk", miC8u)], []⟩

def recC8 : Cache → Nat → Except Err String × Cache := fun c _ => (.error .outOfFuel, c)

/-- Witness for C8: a stdlib module, a versioned module, and a module with
no version anywhere in its chain. -/
theorem c8_module_tokens_witness :
    hashedGlobalsOf recC8 envC8s 50 fdC8s none [] = (.ok [("os", "os(stdlib)")], []) ∧
    hashedGlobalsOf recC8 envC8v 51 fdC8v none [] = (.ok [("np", "np(1.2)")], []) ∧
    hashedGlobalsOf recC8 envC8u 52 fdC8u none [] =
      (.error (.codehashIn 52 "pk" (.module miC8u)), []) :=
  ⟨c8_module_tokens recC8 envC8s 50 fdC8s none [] "os" miC8s rfl rfl (by
      intro i h1 h2
      rw [show (splitDotted miC8s.name).length = 1 from rfl] at h2
      have : i = 1 := by omega
      subst this
      rfl),
   c8_module_tokens recC8 envC8v 51 fdC8v none [] "np" miC8v rfl rfl (by
      intro i h1 h2
      rw [show (splitDotted miC8v.name).length = 1 from rfl] at h2
      have : i = 1 := by omega
      subst this
      rfl),
   c8_module_tokens recC8 envC8u 52 fdC8u none [] "pk" miC8u rfl rfl (by
      intro i h1 h2
      rw [show (splitDotted miC8u.name).length = 1 from rfl] at h2
      have : i = 1 := by omega
      subst this
      rfl)⟩

/-! ## C9: the string order and the key sort -/

theorem lexLtB_asymm : ∀ (a b : List Char), lexLtB a b = true → lexLtB b a = false := by
  intro a
  induction a with
  | nil =>
    intro b h
    cases b with
    | nil => simp [lexLtB] at h
    | cons c cs => simp [lexLtB]
  | cons x xs ih =>
    intro b h
    cases b with
    | nil => simp [lexLtB] at h
    | cons y ys =>
      simp only [lexLtB] at h ⊢
      by_cases hxy : x < y
      · have hyx : ¬ y < x := lt_asymm hxy
        simp [hxy, hyx]
      · by_cases hyx : y < x
        · simp [hxy, hyx] at h
        · simp only [hxy, hyx, if_false] at h ⊢
          exact ih ys h

theorem lexLtB_eq_of_both_not : ∀ (a b : List Char),
    lexLtB a b = false → lexLtB b a = false → a = b := by
  intro a
  induction a with
  | nil =>
    intro b h1 _
    cases b with
    | nil => rfl
    | cons c cs => simp [lexLtB] at h1
  | cons x xs ih =>
    intro b h1 h2
    cases b with
    | nil => simp [lexLtB] at h2
    | cons y ys =>
      simp only [lexLtB] at h1 h2
      by_cases hxy : x < y
      · simp [hxy] at h1
      · by_cases hyx : y < x
        · simp [hyx, lt_asymm hyx] at h2
        · simp only [hxy, hyx, if_false] at h1 h2
          have hx : x = y := le_antisymm (le_of_not_lt hyx) (le_of_not_lt hxy)
          rw [hx, ih ys h1 h2]

theorem strLeB_antisymm (a b : String) (h1 : strLeB a b = true) (h2 : strLeB b a = true) :
    a = b := by
  simp only [strLeB, Bool.not_eq_true', strLtB] at h1 h2
  have hd := lexLtB_eq_of_both_not b.data a.data h1 h2
  cases a with
  | mk da =>
    cases b with
    | mk db => exact congrArg String.mk hd.symm

theorem strLeB_total (a b : String) : strLeB a b = true ∨ strLeB b a = true := by
  simp only [strLeB, Bool.not_eq_true', strLtB]
  cases h : lexLtB b.data a.data with
  | false => exact Or.inl rfl
  | true => exact Or.inr (lexLtB_asymm b.data a.data h)

theorem lexLtB_le_trans : ∀ (a b c : List Char),
    lexLtB b a = false → lexLtB c b = false → lexLtB c a = false := by
  intro a
  induction a with
  | nil => intro b c _ _; cases c <;> rfl
  | cons x xs ih =>
    intro b c h1 h2
    cases b with
    | nil => simp [lexLtB] at h1
    | cons y ys =>
      cases c with
      | nil => simp [lexLtB] at h2
      | cons z zs =>
        simp only [lexLtB] at h1 h2 ⊢
        rcases lt_trichotomy y x with hyx | heq1 | hxy
        · rw [if_pos hyx] at h1
          simp at h1
        · rw [heq1] at h1 h2
          rw [if_neg (lt_irrefl x), if_neg (lt_irrefl x)] at h1
          rcases lt_trichotomy z x with hzx | heq2 | hxz
          · rw [if_pos hzx] at h2
            simp at h2
          · rw [heq2] at h2 ⊢
            rw [if_neg (lt_irrefl x), if_neg (lt_irrefl x)] at h2
            rw [if_neg (lt_irrefl x), if_neg (lt_irrefl x)]
            exact ih ys zs h1 h2
          · rw [if_neg (lt_asymm hxz), if_pos hxz]
        · rcases lt_trichotomy z y with hzy | heq2 | hyz
          · rw [if_pos hzy] at h2
            simp at h2
          · rw [← heq2] at hxy
            rw [if_neg (lt_asymm hxy), if_pos hxy]
          · have hxz : x < z := lt_trans hxy hyz
            rw [if_neg (lt_asymm hxz), if_pos hxz]

theorem strLeB_trans (a b c : String) (h1 : strLeB a b = true) (h2 : strLeB b c = true) :
    strLeB a c = true := by
  simp only [strLeB, Bool.not_eq_true', strLtB] at h1 h2 ⊢
  exact lexLtB_le_trans a.data b.data c.data h1 h2

theorem insStr_perm (x : String) : ∀ (l : List String), (insStr x l).Perm (x :: l) := by
  intro l
  induction l with
  | nil => simp [insStr]
  | cons y ys ih =>
    by_cases hle : strLeB x y = true
    · simp [insStr, hle]
    · simp only [insStr, hle, Bool.false_eq_true, if_false]
      exact (List.Perm.cons y ih).trans (List.Perm.swap x y ys)

theorem sortStrs_perm : ∀ (l : List String), (sortStrs l).Perm l := by
  intro l
  induction l with
  | nil => simp [sortStrs]
  | cons x xs ih =>
    simp only [sortStrs]
    exact (insStr_perm x (sortStrs xs)).trans (List.Perm.cons x ih)

theorem insStr_sorted (x : String) :
    ∀ (l : List String), l.Pairwise (fun a b => strLeB a b = true) →
      (insStr x l).Pairwise (fun a b => strLeB a b = true) := by
  intro l
  induction l with
  | nil => intro _; simp [insStr]
  | cons y ys ih =>
    intro hs
    rw [List.pairwise_cons] at hs
    by_cases hle : strLeB x y = true
    · simp only [insStr, hle, if_true]
      rw [List.pairwise_cons]
      constructor
      · intro b hb
        rcases List.mem_cons.mp hb with rfl | hb'
        · exact hle
        · exact strLeB_trans x y b hle (hs.1 b hb')
      · rw [List.pairwise_cons]
        exact hs
    · simp only [insStr, hle, Bool.false_eq_true, if_false]
      rw [List.pairwise_cons]
      constructor
      · intro b hb
        rcases mem_insStr b x ys hb with hbx | hb'
        · rcases strLeB_total x y with h | h
          · exact absurd h hle
          · rw [hbx]
            exact h
        · exact hs.1 b hb'
      · exact ih hs.2

theorem sortStrs_sorted : ∀ (l : List String),
    (sortStrs l).Pairwise (fun a b => strLeB a b = true) := by
  intro l
  induction l with
  | nil => simp [sortStrs]
  | cons x xs ih => exact insStr_sorted x (sortStrs xs) ih

theorem sortStrs_eq_of_perm (l1 l2 : List String) (h : l1.Perm l2) :
    sortStrs l1 = sortStrs l2 := by
  haveI : IsAntisymm String (fun a b => strLeB a b = true) :=
    ⟨fun a b => strLeB_antisymm a b⟩
  exact List.eq_of_perm_of_sorted
    ((sortStrs_perm l1).trans (h.trans (sortStrs_perm l2).symm))
    (sortStrs_sorted l1) (sortStrs_sorted l2)

theorem sizePPairs_eq_of_perm (kvs1 kvs2 : List (String × PyVal)) (h : kvs1.Perm kvs2) :
    sizePPairs kvs1 = sizePPairs kvs2 := by
  induction h with
  | nil => rfl
  | cons p _ ih =>
    obtain ⟨k, v⟩ := p
    simp [sizePPairs, ih]
  | swap p q l =>
    obtain ⟨k1, v1⟩ := p
    obtain ⟨k2, v2⟩ := q
    simp [sizePPairs]
    omega
  | trans _ _ ih1 ih2 => exact ih1.trans ih2

theorem lookupA_eq_of_perm : ∀ (kvs1 kvs2 : List (String × PyVal)), kvs1.Perm kvs2 →
    (kvs1.map Prod.fst).Nodup → ∀ k, lookupA k kvs1 = lookupA k kvs2 := by
  intro kvs1 kvs2 hperm
  induction hperm with
  | nil => intro _ _; rfl
  | cons p _ ih =>
    intro hnd k
    obtain ⟨k', v⟩ := p
    simp only [lookupA]
    by_cases hk : (k' == k) = true
    · rw [if_pos hk, if_pos hk]
    · rw [if_neg hk, if_neg hk]
      simp only [List.map_cons, List.nodup_cons] at hnd
      exact ih hnd.2 k
  | swap p q l =>
    intro hnd k
    obtain ⟨k1, v1⟩ := p
    obtain ⟨k2, v2⟩ := q
    simp only [List.map_cons, List.nodup_cons, List.mem_cons] at hnd
    simp only [lookupA]
    by_cases h2 : (k2 == k) = true
    · by_cases h1 : (k1 == k) = true
      · exfalso
        rw [beq_iff_eq] at h1 h2
        exact hnd.1 (Or.inl (h2.trans h1.symm))
      · rw [if_pos h2, if_neg h1, if_pos h2]
    · by_cases h1 : (k1 == k) = true
      · rw [if_neg h2, if_pos h1, if_pos h1]
      · rw [if_neg h2, if_neg h1, if_neg h1, if_neg h2]
  | trans h12 _ ih1 ih2 =>
    intro hnd k
    rw [ih1 hnd k]
    exact ih2 ((h12.map Prod.fst).nodup_iff.mp hnd) k

/-- C9: the canonical value serializer is insensitive to dict insertion
order.  Two dicts equal as mappings (the same key-value pairs, keys
pairwise distinct and — being strings — mutually comparable) built in any
two insertion orders produce the same serializer outcome, text and failure
alike, because the keys are sorted into ascending order before
rendering. -/
theorem c9_dict_order_irrelevant (kvs1 kvs2 : List (String × PyVal)) (hook : Option Hook)
    (hperm : kvs1.Perm kvs2) (hnd : (kvs1.map Prod.fst).Nodup) :
    reprHashable (.dictV kvs1) hook = reprHashable (.dictV kvs2) hook := by
  have hkeys : sortStrs (kvs1.map Prod.fst) = sortStrs (kvs2.map Prod.fst) :=
    sortStrs_eq_of_perm _ _ (hperm.map Prod.fst)
  have hlk : ∀ k, lookupA k kvs1 = lookupA k kvs2 :=
    lookupA_eq_of_perm kvs1 kvs2 hperm hnd
  have hsz1 : sizeP (PyVal.dictV kvs1) = sizePPairs kvs2 + 1 := by
    simp only [sizeP, sizePPairs_eq_of_perm kvs1 kvs2 hperm]
    omega
  have hsz2 : sizeP (PyVal.dictV kvs2) = sizePPairs kvs2 + 1 := by
    simp only [sizeP]
    omega
  have hm : deepTransformF (transformOf hook) (sizePPairs kvs2 + 1) (.dictV kvs1) =
      deepTransformF (transformOf hook) (sizePPairs kvs2 + 1) (.dictV kvs2) := by
    simp only [deepTransformF]
    rw [hkeys]
    have harg : ∀ k ∈ sortStrs (kvs2.map Prod.fst),
        (match lookupA k kvs1 with
         | some w =>
           match deepTransformF (transformOf hook) (sizePPairs kvs2) w with
           | Except.error e => Except.error e
           | Except.ok tw => Except.ok (k, tw)
         | none => Except.error Err.keyError) =
        (match lookupA k kvs2 with
         | some w =>
           match deepTransformF (transformOf hook) (sizePPairs kvs2) w with
           | Except.error e => Except.error e
           | Except.ok tw => Except.ok (k, tw)
         | none => Except.error Err.keyError) := by
      intro k _
      rw [hlk k]
    rw [List.map_congr_left harg]
  simp only [reprHashable, deepTransform, hsz1, hsz2, hm]

/-- Witness for C9: `{'a': 1, 'b': 2}` serialized from its two insertion
orders. -/
theorem c9_dict_order_irrelevant_witness :
    reprHashable (.dictV [("b", .intV 2), ("a", .intV 1)]) none =
      reprHashable (.dictV [("a", .intV 1), ("b", .intV 2)]) none :=
  c9_dict_order_irrelevant [("b", .intV 2), ("a", .intV 1)]
    [("a", .intV 1), ("b", .intV 2)] none
    (List.Perm.swap ("a", PyVal.intV 1) ("b", PyVal.intV 2) []) (by decide)

/-! ## C4: injectivity of the canonical serialization

The claim that changing a captured container's content changes the identity
needs the serializer to be injective on transformed values.  This is proved
by exhibiting a parser for the `repr` grammar and a round-trip theorem:
every rendered value, followed by any continuation that does not glue onto
it (no leading digit), parses back to itself.
-/

mutual
def tsize : TVal → Nat
  | .noneT => 1
  | .boolT _ => 1
  | .intT _ => 1
  | .strT _ => 1
  | .listT xs => 2 + tsizeList xs
  | .tupleT xs => 2 + tsizeList xs
  | .dictT kvs => 2 + tsizePairs kvs
  | .hashedT _ => 1

def tsizeList : List TVal → Nat
  | [] => 0
  | x :: xs => tsize x + tsizeList xs

def tsizePairs : List (String × TVal) → Nat
  | [] => 0
  | (_, v) :: rest => tsize v + tsizePairs rest
end

theorem tsize_pos (v : TVal) : 1 ≤ tsize v := by
  cases v <;> simp [tsize] <;> omega

/-! ### Decimal digit runs -/

def digitVal (c : Char) : Nat := c.toNat - 48

def valOfDigits (l : List Char) : Nat := l.foldl (fun a c => 10 * a + digitVal c) 0

theorem valOfDigits_append_one (a : List Char) (c : Char) :
    valOfDigits (a ++ [c]) = 10 * valOfDigits a + digitVal c := by
  simp [valOfDigits, List.foldl_append]

theorem digitChar_isDigit (n : Nat) (h : n < 10) : (digitChar n).isDigit = true := by
  interval_cases n <;> decide

theorem digitVal_digitChar (n : Nat) (h : n < 10) : digitVal (digitChar n) = n := by
  interval_cases n <;> decide

theorem natDigitsF_spec : ∀ (fuel n : Nat), n < fuel →
    (natDigitsF fuel n ≠ [] ∧ (∀ c ∈ natDigitsF fuel n, c.isDigit = true) ∧
     valOfDigits (natDigitsF fuel n) = n) := by
  intro fuel
  induction fuel with
  | zero => intro n h; omega
  | succ fuel ih =>
    intro n h
    by_cases hn : n < 10
    · refine ⟨by simp [natDigitsF, hn], ?_, ?_⟩
      · intro c hc
        simp only [natDigitsF, hn, if_true, List.mem_singleton] at hc
        rw [hc]
        exact digitChar_isDigit n hn
      · simp [natDigitsF, hn, valOfDigits, digitVal_digitChar n hn]
    · have hdiv : n / 10 < fuel := by
        have h1 : n / 10 < n := Nat.div_lt_self (by omega) (by omega)
        omega
      obtain ⟨hne, hdig, hval⟩ := ih (n / 10) hdiv
      refine ⟨by simp [natDigitsF, hn], ?_, ?_⟩
      · intro c hc
        simp only [natDigitsF, hn, if_false, List.mem_append, List.mem_singleton] at hc
        rcases hc with hc | hc
        · exact hdig c hc
        · rw [hc]
          exact digitChar_isDigit (n % 10) (Nat.mod_lt n (by omega))
      · simp only [natDigitsF, hn, if_false, valOfDigits_append_one, hval,
          digitVal_digitChar (n % 10) (Nat.mod_lt n (by omega))]
        omega

theorem natDigits_spec (n : Nat) :
    natDigits n ≠ [] ∧ (∀ c ∈ natDigits n, c.isDigit = true) ∧
    valOfDigits (natDigits n) = n :=
  natDigitsF_spec (n + 1) n (Nat.lt_succ_self n)

/-- Continuations that do not start with a digit (so that a rendered
integer is not extended by what follows it). -/
def headNotDigit (r : List Char) : Prop :=
  match r with
  | [] => True
  | c :: _ => c.isDigit = false

/-- Maximal digit-run parser. -/
def parseNatRun (input : List Char) : Option (Nat × List Char) :=
  match input.takeWhile Char.isDigit with
  | [] => none
  | run => some (valOfDigits run, input.dropWhile Char.isDigit)

theorem takeWhile_append_of_all (p : Char → Bool) :
    ∀ (a r : List Char), (∀ c ∈ a, p c = true) →
      (match r with | [] => True | c :: _ => p c = false) →
      (a ++ r).takeWhile p = a ∧ (a ++ r).dropWhile p = r := by
  intro a
  induction a with
  | nil =>
    intro r _ hr
    cases r with
    | nil => simp
    | cons c cs => simp_all [List.takeWhile, List.dropWhile]
  | cons x xs ih =>
    intro r ha hr
    have hx : p x = true := ha x (by simp)
    obtain ⟨h1, h2⟩ := ih r (fun c hc => ha c (by simp [hc])) hr
    simp [List.takeWhile, List.dropWhile, hx, h1, h2]

theorem parseNatRun_round (n : Nat) (r : List Char) (hr : headNotDigit r) :
    parseNatRun (natDigits n ++ r) = some (n, r) := by
  obtain ⟨hne, hdig, hval⟩ := natDigits_spec n
  obtain ⟨h1, h2⟩ := takeWhile_append_of_all Char.isDigit (natDigits n) r hdig
    (by cases r with | nil => trivial | cons c cs => exact hr)
  unfold parseNatRun
  rw [h1, h2]
  cases hd : natDigits n with
  | nil => exact absurd hd hne
  | cons c cs =>
    rw [hd] at hval
    simp [← hd, hval]
    rw [hd]
    simp [hval]

/-! ### String literals -/

/-- Decoding table for the modelled escapes. -/
def escCode (q e : Char) : Option Char :=
  if e = '\\' then some '\\'
  else if e = q then some q
  else if e = 'n' then some '\n'
  else if e = 'r' then some '\r'
  else if e = 't' then some '\t'
  else none

theorem quoteFor_cases (cs : List Char) : quoteFor cs = '\'' ∨ quoteFor cs = '"' := by
  unfold quoteFor
  by_cases h : (cs.contains '\'' && !(cs.contains '"')) = true
  · rw [if_pos h]
    exact Or.inr rfl
  · rw [if_neg h]
    exact Or.inl rfl

theorem escChar_shape (q c : Char) (hq : q = '\'' ∨ q = '"') :
    (∃ e, escChar q c = ['\\', e] ∧ escCode q e = some c) ∨
    (escChar q c = [c] ∧ c ≠ '\\' ∧ c ≠ q) := by
  have hqbs : q ≠ '\\' := by rcases hq with rfl | rfl <;> decide
  have hqn : q ≠ 'n' := by rcases hq with rfl | rfl <;> decide
  have hqr : q ≠ 'r' := by rcases hq with rfl | rfl <;> decide
  have hqt : q ≠ 't' := by rcases hq with rfl | rfl <;> decide
  unfold escChar escCode
  by_cases h1 : c = '\\'
  · subst h1
    simp
  · rw [if_neg h1]
    by_cases h2 : c = q
    · subst h2
      simp [if_neg hqbs]
    · rw [if_neg h2]
      by_cases h3 : c = '\n'
      · subst h3
        refine Or.inl ⟨'n', by simp, ?_⟩
        rw [if_neg (by decide), if_neg (Ne.symm hqn), if_pos rfl]
      · rw [if_neg h3]
        by_cases h4 : c = '\r'
        · subst h4
          refine Or.inl ⟨'r', by simp, ?_⟩
          rw [if_neg (by decide), if_neg (Ne.symm hqr), if_neg (by decide), if_pos rfl]
        · rw [if_neg h4]
          by_cases h5 : c = '\t'
          · subst h5
            refine Or.inl ⟨'t', by simp, ?_⟩
            rw [if_neg (by decide), if_neg (Ne.symm hqt), if_neg (by decide),
              if_neg (by decide), if_pos rfl]
          · rw [if_neg h5]
            exact Or.inr ⟨rfl, h1, h2⟩

/-- Body of a quoted literal: read up to the unescaped closing quote,
decoding escapes. -/
def parseStrBody (q : Char) : List Char → Option (List Char × List Char)
  | [] => none
  | c :: rest =>
    if c = q then some ([], rest)
    else if c = '\\' then
      match rest with
      | e :: rest2 =>
        match escCode q e with
        | some d =>
          match parseStrBody q rest2 with
          | some (s, r) => some (d :: s, r)
          | none => none
        | none => none
      | [] => none
    else
      match parseStrBody q rest with
      | some (s, r) => some (c :: s, r)
      | none => none

def parseStr : List Char → Option (String × List Char)
  | [] => none
  | c :: rest =>
    if c = '\'' then
      match parseStrBody '\'' rest with
      | some (s, r) => some (String.mk s, r)
      | none => none
    else if c = '"' then
      match parseStrBody '"' rest with
      | some (s, r) => some (String.mk s, r)
      | none => none
    else none

theorem parseStrBody_round (q : Char) (hq : q = '\'' ∨ q = '"') :
    ∀ (s : List Char) (r : List Char),
      parseStrBody q (escList q s ++ (q :: r)) = some (s, r) := by
  intro s
  induction s with
  | nil =>
    intro r
    show parseStrBody q (q :: r) = some ([], r)
    unfold parseStrBody
    rw [if_pos rfl]
  | cons c cs ih =>
    intro r
    rcases escChar_shape q c hq with ⟨e, he, hd⟩ | ⟨he, hbs, hqc⟩
    · have hqbs : q ≠ '\\' := by rcases hq with rfl | rfl <;> decide
      rw [show escList q (c :: cs) ++ (q :: r) =
          '\\' :: (e :: (escList q cs ++ (q :: r))) from by
        simp [escList, he]]
      unfold parseStrBody
      rw [if_neg (Ne.symm hqbs), if_pos rfl]
      simp only [hd, ih r]
    · rw [show escList q (c :: cs) ++ (q :: r) =
          c :: (escList q cs ++ (q :: r)) from by simp [escList, he]]
      unfold parseStrBody
      rw [if_neg hqc, if_neg hbs]
      simp only [ih r]

theorem parseStr_round (s : String) (r : List Char) :
    parseStr (pyStrRepr s ++ r) = some (s, r) := by
  rcases quoteFor_cases s.data with hc | hc
  · rw [show pyStrRepr s ++ r = '\'' :: (escList '\'' s.data ++ ('\'' :: r)) from by
      simp [pyStrRepr, hc, List.append_assoc]]
    simp only [parseStr]
    rw [if_pos trivial, parseStrBody_round '\'' (Or.inl rfl) s.data r]
  · rw [show pyStrRepr s ++ r = '"' :: (escList '"' s.data ++ ('"' :: r)) from by
      simp [pyStrRepr, hc, List.append_assoc]]
    show (match parseStrBody '"' (escList '"' s.data ++ ('"' :: r)) with
      | some (s2, r2) => some (String.mk s2, r2)
      | none => none) = some (s, r)
    rw [parseStrBody_round '"' (Or.inr rfl) s.data r]

/-! ### The value parser -/

mutual
def parseV : Nat → List Char → Option (TVal × List Char)
  | 0, _ => none
  | fuel+1, input =>
    match input with
    | [] => none
    | c :: rest =>
      if c = 'N' then
        match rest with
        | 'o' :: 'n' :: 'e' :: r => some (.noneT, r)
        | _ => none
      else if c = 'T' then
        match rest with
        | 'r' :: 'u' :: 'e' :: r => some (.boolT true, r)
        | _ => none
      else if c = 'F' then
        match rest with
        | 'a' :: 'l' :: 's' :: 'e' :: r => some (.boolT false, r)
        | _ => none
      else if c = 'H' then
        match rest with
        | 'a' :: 's' :: 'h' :: 'e' :: 'd' :: '(' :: r =>
          match parseStr r with
          | some (s, ')' :: r2) => some (.hashedT s, r2)
          | _ => none
        | _ => none
      else if c = '[' then
        match rest with
        | ']' :: r => some (.listT [], r)
        | _ =>
          match parseItems fuel rest with
          | some (xs, ']' :: r) => some (.listT xs, r)
          | _ => none
      else if c = '(' then
        match rest with
        | ')' :: r => some (.tupleT [], r)
        | _ =>
          match parseItems fuel rest with
          | some ([v], ',' :: ')' :: r) => some (.tupleT [v], r)
          | some (xs, ')' :: r) => some (.tupleT xs, r)
          | _ => none
      else if c = '{' then
        match rest with
        | '}' :: r => some (.dictT [], r)
        | _ =>
          match parsePairs fuel rest with
          | some (kvs, '}' :: r) => some (.dictT kvs, r)
          | _ => none
      else if c = '\'' then
        match parseStr input with
        | some (s, r) => some (.strT s, r)
        | none => none
      else if c = '"' then
        match parseStr input with
        | some (s, r) => some (.strT s, r)
        | none => none
      else if c = '-' then
        match parseNatRun rest with
        | some (n, r) => if n = 0 then none else some (.intT (Int.negSucc (n - 1)), r)
        | none => none
      else if c.isDigit then
        match parseNatRun (c :: rest) with
        | some (n, r) => some (.intT (Int.ofNat n), r)
        | none => none
      else none

def parseItems : Nat → List Char → Option (List TVal × List Char)
  | 0, _ => none
  | fuel+1, input =>
    match parseV fuel input with
    | some (v, ',' :: ' ' :: r) =>
      match parseItems fuel r with
      | some (vs, r2) => some (v :: vs, r2)
      | none => none
    | some (v, r) => some ([v], r)
    | none => none

def parsePairs : Nat → List Char → Option (List (String × TVal) × List Char)
  | 0, _ => none
  | fuel+1, input =>
    match parseStr input with
    | some (k, ':' :: ' ' :: r) =>
      match parseV fuel r with
      | some (v, ',' :: ' ' :: r2) =>
        match parsePairs fuel r2 with
        | some (kvs, r3) => some ((k, v) :: kvs, r3)
        | none => none
      | some (v, r2) => some ([(k, v)], r2)
      | none => none
    | _ => none
end

/-- Characters that can begin a rendered value. -/
def isStartChar (c : Char) : Bool :=
  c = 'N' || c = 'T' || c = 'F' || c = 'H' || c = '[' || c = '(' || c = '{' ||
  c = '\'' || c = '"' || c = '-' || c.isDigit

theorem ne_of_digit (c d : Char) (hc : c.isDigit = true) (hd : d.isDigit = false) :
    ¬ c = d := by
  intro h
  rw [h, hd] at hc
  exact absurd hc (by simp)

theorem reprL_head (v : TVal) : ∃ c cs, reprL v = c :: cs ∧ isStartChar c = true := by
  cases v with
  | noneT => exact ⟨'N', _, rfl, by decide⟩
  | boolT b =>
    cases b with
    | true => exact ⟨'T', _, rfl, by decide⟩
    | false => exact ⟨'F', _, rfl, by decide⟩
  | intT i =>
    cases i with
    | ofNat m =>
      obtain ⟨hne, hdig, _⟩ := natDigits_spec m
      cases hd : natDigits m with
      | nil => exact absurd hd hne
      | cons c cs =>
        refine ⟨c, cs, by simp [reprL, intRepr, hd], ?_⟩
        have hc : c.isDigit = true := hdig c (by rw [hd]; simp)
        simp [isStartChar, hc]
    | negSucc m => exact ⟨'-', _, rfl, by decide⟩
  | strT s =>
    rcases quoteFor_cases s.data with hc | hc
    · exact ⟨'\'', escList '\'' s.data ++ ['\''], by simp [reprL, pyStrRepr, hc], by decide⟩
    · exact ⟨'"', escList '"' s.data ++ ['"'], by simp [reprL, pyStrRepr, hc], by decide⟩
  | listT xs => exact ⟨'[', _, rfl, by decide⟩
  | tupleT xs =>
    cases xs with
    | nil => exact ⟨'(', _, rfl, by decide⟩
    | cons x rest =>
      cases rest with
      | nil => exact ⟨'(', _, rfl, by decide⟩
      | cons y rest2 => exact ⟨'(', _, rfl, by decide⟩
  | dictT kvs => exact ⟨'{', _, rfl, by decide⟩
  | hashedT h => exact ⟨'H', _, rfl, by decide⟩

/-- A rendered item list starting with an element begins with a start
character, never with a closer. -/
theorem reprItems_cons (x : TVal) (xs : List TVal) :
    ∃ t, reprItems (x :: xs) = reprL x ++ t := by
  cases xs with
  | nil => exact ⟨[], by simp [reprItems]⟩
  | cons y rest => exact ⟨_, rfl⟩

theorem reprPairs_cons (k : String) (v : TVal) (kvs : List (String × TVal)) :
    ∃ t, reprPairs ((k, v) :: kvs) = pyStrRepr k ++ (": ".data ++ t) := by
  cases kvs with
  | nil => exact ⟨reprL v, by simp [reprPairs]⟩
  | cons p rest =>
    exact ⟨reprL v ++ (", ".data ++ reprPairs (p :: rest)),
      by simp [reprPairs, List.append_assoc]⟩

/-- Continuations that do not begin with the item separator. -/
def noSep (r : List Char) : Prop :=
  match r with
  | ',' :: ' ' :: _ => False
  | _ => True

/-- Round trip: every rendered value followed by a continuation that does
not start with a digit parses back to exactly that value and continuation;
similarly for nonempty item lists and key-value lists followed by a
continuation that does not start with the item separator. -/
theorem parse_round : ∀ fuel : Nat,
    (∀ (v : TVal) (r : List Char), tsize v ≤ fuel → headNotDigit r →
      parseV fuel (reprL v ++ r) = some (v, r)) ∧
    (∀ (xs : List TVal) (r : List Char), xs ≠ [] → tsizeList xs + 1 ≤ fuel →
      headNotDigit r → noSep r →
      parseItems fuel (reprItems xs ++ r) = some (xs, r)) ∧
    (∀ (kvs : List (String × TVal)) (r : List Char), kvs ≠ [] → tsizePairs kvs + 1 ≤ fuel →
      headNotDigit r → noSep r →
      parsePairs fuel (reprPairs kvs ++ r) = some (kvs, r)) := by
  intro fuel
  induction fuel with
  | zero =>
    refine ⟨fun v r hv _ => absurd (Nat.le_trans (tsize_pos v) hv) (by omega),
      fun xs r _ hsz _ _ => absurd hsz (by omega),
      fun kvs r _ hsz _ _ => absurd hsz (by omega)⟩
  | succ fuel ih =>
    obtain ⟨ihV, ihI, ihP⟩ := ih
    refine ⟨?_, ?_, ?_⟩
    · intro v r hv hr
      cases v with
      | noneT => rfl
      | boolT b => cases b with
        | true => rfl
        | false => rfl
      | intT i =>
        cases i with
        | ofNat m =>
          obtain ⟨hne, hdig, _⟩ := natDigits_spec m
          cases hd : natDigits m with
          | nil => exact absurd hd hne
          | cons c cs =>
            have hc : c.isDigit = true := hdig c (by rw [hd]; simp)
            rw [show reprL (.intT (Int.ofNat m)) ++ r = c :: (cs ++ r) from by
              simp [reprL, intRepr, hd]]
            simp only [parseV]
            rw [if_neg (ne_of_digit c 'N' hc (by decide)),
              if_neg (ne_of_digit c 'T' hc (by decide)),
              if_neg (ne_of_digit c 'F' hc (by decide)),
              if_neg (ne_of_digit c 'H' hc (by decide)),
              if_neg (ne_of_digit c '[' hc (by decide)),
              if_neg (ne_of_digit c '(' hc (by decide)),
              if_neg (ne_of_digit c '{' hc (by decide)),
              if_neg (ne_of_digit c '\'' hc (by decide)),
              if_neg (ne_of_digit c '"' hc (by decide)),
              if_neg (ne_of_digit c '-' hc (by decide)),
              if_pos hc]
            rw [show c :: (cs ++ r) = natDigits m ++ r from by rw [hd, List.cons_append]]
            rw [parseNatRun_round m r hr]
        | negSucc m =>
          rw [show reprL (.intT (Int.negSucc m)) ++ r = '-' :: (natDigits (m + 1) ++ r) from by
            simp [reprL, intRepr]]
          show (match parseNatRun (natDigits (m + 1) ++ r) with
            | some (n, r2) => if n = 0 then none else some (TVal.intT (Int.negSucc (n - 1)), r2)
            | none => none) = some (.intT (Int.negSucc m), r)
          rw [parseNatRun_round (m + 1) r hr]
          simp
      | strT s =>
        rcases quoteFor_cases s.data with hc | hc
        · rw [show reprL (.strT s) ++ r = '\'' :: ((escList '\'' s.data ++ ['\'']) ++ r) from by
            simp [reprL, pyStrRepr, hc]]
          show (match parseStr ('\'' :: ((escList '\'' s.data ++ ['\'']) ++ r)) with
            | some (s2, r2) => some (TVal.strT s2, r2)
            | none => none) = some (.strT s, r)
          rw [show ('\'' : Char) :: ((escList '\'' s.data ++ ['\'']) ++ r) = pyStrRepr s ++ r from by
            simp [pyStrRepr, hc, List.append_assoc]]
          rw [parseStr_round s r]
        · rw [show reprL (.strT s) ++ r = '"' :: ((escList '"' s.data ++ ['"']) ++ r) from by
            simp [reprL, pyStrRepr, hc]]
          show (match parseStr ('"' :: ((escList '"' s.data ++ ['"']) ++ r)) with
            | some (s2, r2) => some (TVal.strT s2, r2)
            | none => none) = some (.strT s, r)
          rw [show ('"' : Char) :: ((escList '"' s.data ++ ['"']) ++ r) = pyStrRepr s ++ r from by
            simp [pyStrRepr, hc, List.append_assoc]]
          rw [parseStr_round s r]
      | hashedT h =>
        rw [show reprL (.hashedT h) ++ r =
            'H' :: ('a' :: ('s' :: ('h' :: ('e' :: ('d' :: ('(' ::
              (pyStrRepr h ++ (')' :: r)))))))) from by
          simp [reprL, List.append_assoc]]
        show (match parseStr (pyStrRepr h ++ (')' :: r)) with
          | some (s, ')' :: r2) => some (TVal.hashedT s, r2)
          | _ => none) = some (.hashedT h, r)
        rw [parseStr_round h (')' :: r)]
        rfl
      | listT xs =>
        cases xs with
        | nil => rfl
        | cons x xs =>
          rw [show reprL (.listT (x :: xs)) ++ r =
              '[' :: (reprItems (x :: xs) ++ (']' :: r)) from by
            simp [reprL, List.append_assoc]]
          show (match reprItems (x :: xs) ++ (']' :: r) with
            | ']' :: r2 => some (TVal.listT [], r2)
            | _ =>
              match parseItems fuel (reprItems (x :: xs) ++ (']' :: r)) with
              | some (xs2, ']' :: r2) => some (TVal.listT xs2, r2)
              | _ => none) = some (.listT (x :: xs), r)
        
          split
          · next r2 heq =>
            obtain ⟨c0, cs0, hh, hs⟩ := reprL_head x
            obtain ⟨t, ht⟩ := reprItems_cons x xs
            rw [ht, hh] at heq
            simp only [List.cons_append, List.append_assoc, List.cons.injEq] at heq
            rw [heq.1] at hs
            exact absurd hs (by decide)
          · next hne2 =>
            rw [ihI (x :: xs) (']' :: r) (by simp)
              (by simp only [tsize] at hv; omega) rfl trivial]
            rfl
      | tupleT xs =>
        cases xs with
        | nil => rfl
        | cons x xs =>
          cases xs with
          | nil =>
            rw [show reprL (.tupleT [x]) ++ r =
                '(' :: (reprL x ++ (',' :: (')' :: r))) from by
              simp [reprL, List.append_assoc]]
            show (match reprL x ++ (',' :: (')' :: r)) with
              | ')' :: r2 => some (TVal.tupleT [], r2)
              | _ =>
                match parseItems fuel (reprL x ++ (',' :: (')' :: r))) with
                | some ([v], ',' :: ')' :: r2) => some (TVal.tupleT [v], r2)
                | some (xs2, ')' :: r2) => some (TVal.tupleT xs2, r2)
                | _ => none) = some (.tupleT [x], r)
            split
            · next r2 heq =>
              obtain ⟨c0, cs0, hh, hs⟩ := reprL_head x
              rw [hh] at heq
              simp only [List.cons_append, List.cons.injEq] at heq
              rw [heq.1] at hs
              exact absurd hs (by decide)
            · next hne2 =>
              rw [show reprL x ++ (',' :: (')' :: r)) = reprItems [x] ++ (',' :: (')' :: r))
                  from rfl]
              rw [ihI [x] (',' :: (')' :: r)) (by simp)
                (by simp only [tsize, tsizeList] at hv ⊢; omega) rfl trivial]
              rfl
          | cons y ys =>
            rw [show reprL (.tupleT (x :: y :: ys)) ++ r =
                '(' :: (reprItems (x :: y :: ys) ++ (')' :: r)) from by
              simp [reprL, List.append_assoc]]
            show (match reprItems (x :: y :: ys) ++ (')' :: r) with
              | ')' :: r2 => some (TVal.tupleT [], r2)
              | _ =>
                match parseItems fuel (reprItems (x :: y :: ys) ++ (')' :: r)) with
                | some ([v], ',' :: ')' :: r2) => some (TVal.tupleT [v], r2)
                | some (xs2, ')' :: r2) => some (TVal.tupleT xs2, r2)
                | _ => none) = some (.tupleT (x :: y :: ys), r)
            split
            · next r2 heq =>
              obtain ⟨c0, cs0, hh, hs⟩ := reprL_head x
              obtain ⟨t, ht⟩ := reprItems_cons x (y :: ys)
              rw [ht, hh] at heq
              simp only [List.cons_append, List.append_assoc, List.cons.injEq] at heq
              rw [heq.1] at hs
              exact absurd hs (by decide)
            · next hne2 =>
              rw [ihI (x :: y :: ys) (')' :: r) (by simp)
                (by simp only [tsize] at hv; omega) rfl trivial]
              rfl
      | dictT kvs =>
        cases kvs with
        | nil => rfl
        | cons p kvs =>
          obtain ⟨k, v0⟩ := p
          rw [show reprL (.dictT ((k, v0) :: kvs)) ++ r =
              '{' :: (reprPairs ((k, v0) :: kvs) ++ ('}' :: r)) from by
            simp [reprL, List.append_assoc]]
          show (match reprPairs ((k, v0) :: kvs) ++ ('}' :: r) with
            | '}' :: r2 => some (TVal.dictT [], r2)
            | _ =>
              match parsePairs fuel (reprPairs ((k, v0) :: kvs) ++ ('}' :: r)) with
              | some (kvs2, '}' :: r2) => some (TVal.dictT kvs2, r2)
              | _ => none) = some (.dictT ((k, v0) :: kvs), r)
          split
          · next r2 heq =>
            obtain ⟨t, ht⟩ := reprPairs_cons k v0 kvs
            rw [ht] at heq
            rcases quoteFor_cases k.data with hq | hq <;>
              rw [show pyStrRepr k = quoteFor k.data :: (escList (quoteFor k.data) k.data ++
                  [quoteFor k.data]) from rfl, hq] at heq <;>
              simp only [List.cons_append, List.append_assoc, List.cons.injEq] at heq <;>
              exact absurd heq.1 (by decide)
          · next hne2 =>
            rw [ihP ((k, v0) :: kvs) ('}' :: r) (by simp)
              (by simp only [tsize] at hv; omega) rfl trivial]
            rfl
    · intro xs r hne hsz hr hnosep
      cases xs with
      | nil => exact absurd rfl hne
      | cons x xs =>
        cases xs with
        | nil =>
          show parseItems (fuel + 1) (reprL x ++ r) = some ([x], r)
          simp only [parseItems]
          rw [ihV x r (by simp only [tsizeList] at hsz; omega) hr]
          split
          · next v2 r2 heq =>
            simp only [Option.some.injEq, Prod.mk.injEq] at heq
            rw [heq.2] at hnosep
            simp [noSep] at hnosep
          · next v2 r2 heq =>
            simp only [Option.some.injEq, Prod.mk.injEq] at heq
            rw [heq.1, heq.2]
          · next heq => simp at heq
        | cons y ys =>
          rw [show reprItems (x :: y :: ys) ++ r =
              reprL x ++ (',' :: (' ' :: (reprItems (y :: ys) ++ r))) from by
            simp [reprItems, List.append_assoc]]
          simp only [parseItems]
          rw [ihV x (',' :: (' ' :: (reprItems (y :: ys) ++ r)))
            (by simp only [tsizeList] at hsz; have := tsize_pos y; omega) rfl]
          show (match parseItems fuel (reprItems (y :: ys) ++ r) with
            | some (vs, r2) => some (x :: vs, r2)
            | none => none) = some (x :: y :: ys, r)
          rw [ihI (y :: ys) r (by simp)
            (by simp only [tsizeList] at hsz ⊢; have := tsize_pos x; omega) hr hnosep]
    · intro kvs r hne hsz hr hnosep
      cases kvs with
      | nil => exact absurd rfl hne
      | cons p kvs =>
        obtain ⟨k, v0⟩ := p
        cases kvs with
        | nil =>
          rw [show reprPairs [(k, v0)] ++ r =
              pyStrRepr k ++ (':' :: (' ' :: (reprL v0 ++ r))) from by
            simp [reprPairs, List.append_assoc]]
          simp only [parsePairs]
          rw [parseStr_round k (':' :: (' ' :: (reprL v0 ++ r)))]
          show (match parseV fuel (reprL v0 ++ r) with
            | some (v, ',' :: ' ' :: r2) =>
              match parsePairs fuel r2 with
              | some (kvs, r3) => some ((k, v) :: kvs, r3)
              | none => none
            | some (v, r2) => some ([(k, v)], r2)
            | none => none) = some ([(k, v0)], r)
          rw [ihV v0 r (by simp only [tsizePairs] at hsz; omega) hr]
          split
          · next v2 r2 heq =>
            simp only [Option.some.injEq, Prod.mk.injEq] at heq
            rw [heq.2] at hnosep
            simp [noSep] at hnosep
          · next v2 r2 heq =>
            simp only [Option.some.injEq, Prod.mk.injEq] at heq
            rw [heq.1, heq.2]
          · next heq => simp at heq
        | cons p2 kvs2 =>
          obtain ⟨k2, v2⟩ := p2
          rw [show reprPairs ((k, v0) :: (k2, v2) :: kvs2) ++ r =
              pyStrRepr k ++ (':' :: (' ' :: (reprL v0 ++
                (',' :: (' ' :: (reprPairs ((k2, v2) :: kvs2) ++ r)))))) from by
            simp [reprPairs, List.append_assoc]]
          simp only [parsePairs]
          rw [parseStr_round k (':' :: (' ' :: (reprL v0 ++
            (',' :: (' ' :: (reprPairs ((k2, v2) :: kvs2) ++ r))))))]
          show (match parseV fuel (reprL v0 ++
              (',' :: (' ' :: (reprPairs ((k2, v2) :: kvs2) ++ r)))) with
            | some (v, ',' :: ' ' :: r2) =>
              match parsePairs fuel r2 with
              | some (kvs, r3) => some ((k, v) :: kvs, r3)
              | none => none
            | some (v, r2) => some ([(k, v)], r2)
            | none => none) = some ((k, v0) :: (k2, v2) :: kvs2, r)
          rw [ihV v0 (',' :: (' ' :: (reprPairs ((k2, v2) :: kvs2) ++ r)))
            (by simp only [tsizePairs] at hsz; have := tsize_pos v2; omega) rfl]
          show (match parsePairs fuel (reprPairs ((k2, v2) :: kvs2) ++ r) with
            | some (kvs, r3) => some ((k, v0) :: kvs, r3)
            | none => none) = some ((k, v0) :: (k2, v2) :: kvs2, r)
          rw [ihP ((k2, v2) :: kvs2) r (by simp)
            (by simp only [tsizePairs] at hsz ⊢; have := tsize_pos v0; omega) hr hnosep]

/-- The serializer's rendering is injective: two transformed values with
the same `repr` text are equal. -/
theorem reprL_inj (v w : TVal) (h : reprL v = reprL w) : v = w := by
  have h1 := (parse_round (tsize v + tsize w)).1 v [] (Nat.le_add_right _ _) trivial
  have h2 := (parse_round (tsize v + tsize w)).1 w []
    (by have := Nat.le_add_left (tsize w) (tsize v); omega) trivial
  rw [List.append_nil] at h1 h2
  rw [h, h2] at h1
  simp only [Option.some.injEq, Prod.mk.injEq] at h1
  exact h1.1.symm

theorem reprTVal_inj (v w : TVal) (h : reprTVal v = reprTVal w) : v = w := by
  apply reprL_inj
  have := congrArg String.data h
  simpa [reprTVal] using this

theorem string_append_left_cancel (p a b : String) (h : p ++ a = p ++ b) : a = b := by
  have hd := congrArg String.data h
  simp only [String.data_append] at hd
  have := List.append_cancel_left hd
  cases a with
  | mk da =>
    cases b with
    | mk db => exact congrArg String.mk this

theorem hashText_inj (a b : String) (h : hashText a = hashText b) : a = b :=
  string_append_left_cancel "sha1:" a b h

/-! ### Canonical plain values

A plain value in canonical form (every dict strictly sorted by key) is
transformed by the serializer into its structural embedding, unchanged. -/

def sortedStrictKeys : List String → Bool
  | [] => true
  | [_] => true
  | a :: b :: rest => strLtB a b && sortedStrictKeys (b :: rest)

mutual
def canonB : PyVal → Bool
  | .noneV => true
  | .boolV _ => true
  | .intV _ => true
  | .strV _ => true
  | .listV xs => canonListB xs
  | .tupleV xs => canonListB xs
  | .dictV kvs => sortedStrictKeys (kvs.map Prod.fst) && canonPairsB kvs
  | .objV _ _ => true

def canonListB : List PyVal → Bool
  | [] => true
  | x :: xs => canonB x && canonListB xs

def canonPairsB : List (String × PyVal) → Bool
  | [] => true
  | (_, v) :: rest => canonB v && canonPairsB rest
end

mutual
/-- Structural embedding of a plain value into the transformed universe
(opaque instances, excluded by plainness, map to a dummy). -/
def embedC : PyVal → TVal
  | .noneV => .noneT
  | .boolV b => .boolT b
  | .intV i => .intT i
  | .strV s => .strT s
  | .listV xs => .listT (embedCList xs)
  | .tupleV xs => .tupleT (embedCList xs)
  | .dictV kvs => .dictT (embedCPairs kvs)
  | .objV _ _ => .hashedT ""

def embedCList : List PyVal → List TVal
  | [] => []
  | x :: xs => embedC x :: embedCList xs

def embedCPairs : List (String × PyVal) → List (String × TVal)
  | [] => []
  | (k, v) :: rest => (k, embedC v) :: embedCPairs rest
end

theorem embedCList_eq_map (xs : List PyVal) : embedCList xs = xs.map embedC := by
  induction xs with
  | nil => rfl
  | cons x rest ih => simp [embedCList, ih]

theorem embedCPairs_eq_map (kvs : List (String × PyVal)) :
    embedCPairs kvs = kvs.map (fun p => (p.1, embedC p.2)) := by
  induction kvs with
  | nil => rfl
  | cons p rest ih =>
    obtain ⟨k, v⟩ := p
    simp [embedCPairs, ih]

theorem strLeB_of_strLtB (a b : String) (h : strLtB a b = true) : strLeB a b = true := by
  simp only [strLeB, strLtB, Bool.not_eq_true'] at *
  exact lexLtB_asymm a.data b.data h

theorem strLtB_irrefl (a : String) : strLtB a a = false := by
  cases h : strLtB a a with
  | false => rfl
  | true =>
    have := lexLtB_asymm a.data a.data h
    rw [strLtB] at h
    rw [this] at h
    exact h.symm

theorem strLtB_trans (a b c : String) (h1 : strLtB a b = true) (h2 : strLtB b c = true) :
    strLtB a c = true := by
  rw [strLtB] at h1 h2
  cases hac : strLtB a c with
  | true => rfl
  | false =>
    exfalso
    rw [strLtB] at hac
    have hba := lexLtB_asymm a.data b.data h1
    have hcb := lexLtB_asymm b.data c.data h2
    have hca : lexLtB c.data a.data = false :=
      lexLtB_le_trans a.data b.data c.data hba hcb
    have heq : a.data = c.data := lexLtB_eq_of_both_not a.data c.data hac hca
    rw [heq] at h1
    rw [lexLtB_asymm c.data b.data h1] at h2
    exact Bool.false_ne_true h2

theorem strLtB_sorted_head (a : String) : ∀ (ks : List String),
    sortedStrictKeys (a :: ks) = true → ∀ k ∈ ks, strLtB a k = true := by
  intro ks
  induction ks generalizing a with
  | nil => intro _ k hk; cases hk
  | cons b rest ih =>
    intro h k hk
    simp only [sortedStrictKeys, Bool.and_eq_true] at h
    rcases List.mem_cons.mp hk with hkb | hkr
    · rw [hkb]; exact h.1
    · exact strLtB_trans a b k h.1 (ih b h.2 k hkr)

theorem sortedStrictKeys_tail (a : String) (ks : List String)
    (h : sortedStrictKeys (a :: ks) = true) : sortedStrictKeys ks = true := by
  cases ks with
  | nil => rfl
  | cons b rest =>
    simp only [sortedStrictKeys, Bool.and_eq_true] at h
    exact h.2

theorem sortStrs_of_sortedStrict : ∀ (l : List String),
    sortedStrictKeys l = true → sortStrs l = l := by
  intro l
  induction l with
  | nil => intro _; rfl
  | cons a ks ih =>
    intro h
    cases ks with
    | nil => rfl
    | cons b rest =>
      simp only [sortedStrictKeys, Bool.and_eq_true] at h
      have hrec : sortStrs (b :: rest) = b :: rest := ih h.2
      simp only [sortStrs] at hrec ⊢
      rw [hrec]
      simp [insStr, strLeB_of_strLtB a b h.1]

theorem seqList_map_ok {ε α β : Type} (f : β → α) (l : List β) :
    seqList (l.map (fun x => (Except.ok (f x) : Except ε α))) = .ok (l.map f) := by
  induction l with
  | nil => rfl
  | cons x rest ih => simp [seqList, ih]

theorem canon_of_mem (x : PyVal) (xs : List PyVal) (hc : canonListB xs = true)
    (h : x ∈ xs) : canonB x = true := by
  induction xs with
  | nil => simp at h
  | cons y rest ih =>
    simp only [canonListB, Bool.and_eq_true] at hc
    rcases List.mem_cons.mp h with h' | h'
    · subst h'; exact hc.1
    · exact ih hc.2 h'

theorem plain_of_pair_mem (p : String × PyVal) (kvs : List (String × PyVal))
    (hp : plainPairsB kvs = true) (h : p ∈ kvs) : plainB p.2 = true := by
  induction kvs with
  | nil => simp at h
  | cons q rest ih =>
    obtain ⟨k, v⟩ := q
    simp only [plainPairsB, Bool.and_eq_true] at hp
    rcases List.mem_cons.mp h with h' | h'
    · subst h'; exact hp.1
    · exact ih hp.2 h'

theorem canon_of_pair_mem (p : String × PyVal) (kvs : List (String × PyVal))
    (hc : canonPairsB kvs = true) (h : p ∈ kvs) : canonB p.2 = true := by
  induction kvs with
  | nil => simp at h
  | cons q rest ih =>
    obtain ⟨k, v⟩ := q
    simp only [canonPairsB, Bool.and_eq_true] at hc
    rcases List.mem_cons.mp h with h' | h'
    · subst h'; exact hc.1
    · exact ih hc.2 h'

theorem sizeP_of_pair_mem (p : String × PyVal) (kvs : List (String × PyVal))
    (h : p ∈ kvs) : sizeP p.2 ≤ sizePPairs kvs := by
  induction kvs with
  | nil => simp at h
  | cons q rest ih =>
    obtain ⟨k, v⟩ := q
    rcases List.mem_cons.mp h with h' | h'
    · subst h'
      simp [sizePPairs, Nat.le_add_right]
    · calc sizeP p.2 ≤ sizePPairs rest := ih h'
        _ ≤ sizeP v + sizePPairs rest := Nat.le_add_left _ _
        _ = sizePPairs ((k, v) :: rest) := by simp [sizePPairs]

/-- Rendering a strictly key-sorted dict: looking each key back up and
transforming the value yields exactly the pairwise embedding, in order. -/
theorem dictMapEmbed (t : PyVal → Except Err TVal) (fuel : Nat) :
    ∀ (kvs : List (String × PyVal)),
      sortedStrictKeys (kvs.map Prod.fst) = true →
      (∀ p ∈ kvs, deepTransformF t fuel p.2 = .ok (embedC p.2)) →
      (kvs.map Prod.fst).map (fun k =>
        match lookupA k kvs with
        | some w =>
          match deepTransformF t fuel w with
          | Except.error e => Except.error e
          | Except.ok tw => Except.ok (k, tw)
        | none => Except.error Err.keyError)
      = kvs.map (fun p => Except.ok (p.1, embedC p.2)) := by
  intro kvs
  induction kvs with
  | nil => intro _ _; rfl
  | cons p rest ih =>
    obtain ⟨k, v⟩ := p
    intro hsorted helem
    simp only [List.map_cons] at hsorted ⊢
    have hhead : (match lookupA k ((k, v) :: rest) with
        | some w =>
          match deepTransformF t fuel w with
          | Except.error e => Except.error e
          | Except.ok tw => Except.ok (k, tw)
        | none => Except.error Err.keyError) = Except.ok (k, embedC v) := by
      have hk : (k == k) = true := by simp
      simp only [lookupA, hk, if_true]
      rw [helem (k, v) (by simp)]
    have htail : (rest.map Prod.fst).map (fun k' =>
        match lookupA k' ((k, v) :: rest) with
        | some w =>
          match deepTransformF t fuel w with
          | Except.error e => Except.error e
          | Except.ok tw => Except.ok (k', tw)
        | none => Except.error Err.keyError)
        = rest.map (fun p => Except.ok (p.1, embedC p.2)) := by
      have hcongr : ∀ k' ∈ rest.map Prod.fst,
          (match lookupA k' ((k, v) :: rest) with
          | some w =>
            match deepTransformF t fuel w with
            | Except.error e => Except.error e
            | Except.ok tw => Except.ok (k', tw)
          | none => Except.error Err.keyError)
          = (match lookupA k' rest with
          | some w =>
            match deepTransformF t fuel w with
            | Except.error e => Except.error e
            | Except.ok tw => Except.ok (k', tw)
          | none => Except.error Err.keyError) := by
        intro k' hk'
        have hlt := strLtB_sorted_head k (rest.map Prod.fst) hsorted k' hk'
        have hne : (k == k') = false := by
          cases heq : (k == k') with
          | false => rfl
          | true =>
            rw [beq_iff_eq] at heq
            rw [heq] at hlt
            rw [strLtB_irrefl k'] at hlt
            exact absurd hlt (by simp)
        simp [lookupA, hne]
      rw [List.map_congr_left hcongr]
      exact ih (sortedStrictKeys_tail k _ hsorted)
        (fun q hq => helem q (List.mem_cons_of_mem _ hq))
    rw [hhead, htail]

/-- Transforming a plain value already in canonical form is the identity up
to the embedding into `TVal`: sorting fixes the keys and every element maps
to itself. -/
theorem dtF_canon (t : PyVal → Except Err TVal) :
    ∀ (fuel : Nat) (v : PyVal), plainB v = true → canonB v = true → sizeP v ≤ fuel →
      deepTransformF t fuel v = .ok (embedC v) := by
  intro fuel
  induction fuel with
  | zero =>
    intro v _ _ hs
    exact absurd (Nat.le_trans (sizeP_pos v) hs) (by simp)
  | succ fuel ih =>
    intro v hp hc hs
    cases v with
    | noneV => rfl
    | boolV b => rfl
    | intV i => rfl
    | strV s => rfl
    | objV i ch => simp [plainB] at hp
    | listV xs =>
      simp only [plainB] at hp
      simp only [canonB] at hc
      have hmap : xs.map (deepTransformF t fuel)
          = xs.map (fun x => (Except.ok (embedC x) : Except Err TVal)) := by
        apply List.map_congr_left
        intro y hy
        refine ih y (plain_of_mem y xs hp hy) (canon_of_mem y xs hc hy) ?_
        have h1 : sizeP y ≤ sizePList xs := sizeP_of_mem y xs hy
        have h2 : 1 + sizePList xs ≤ fuel + 1 := by simpa [sizeP] using hs
        omega
      show (match seqList (xs.map (deepTransformF t fuel)) with
        | .error e => .error e
        | .ok ts => .ok (.listT ts)) = Except.ok (embedC (PyVal.listV xs))
      rw [hmap, seqList_map_ok]
      simp [embedC, embedCList_eq_map]
    | tupleV xs =>
      simp only [plainB] at hp
      simp only [canonB] at hc
      have hmap : xs.map (deepTransformF t fuel)
          = xs.map (fun x => (Except.ok (embedC x) : Except Err TVal)) := by
        apply List.map_congr_left
        intro y hy
        refine ih y (plain_of_mem y xs hp hy) (canon_of_mem y xs hc hy) ?_
        have h1 : sizeP y ≤ sizePList xs := sizeP_of_mem y xs hy
        have h2 : 1 + sizePList xs ≤ fuel + 1 := by simpa [sizeP] using hs
        omega
      show (match seqList (xs.map (deepTransformF t fuel)) with
        | .error e => .error e
        | .ok ts => .ok (.tupleT ts)) = Except.ok (embedC (PyVal.tupleV xs))
      rw [hmap, seqList_map_ok]
      simp [embedC, embedCList_eq_map]
    | dictV kvs =>
      simp only [plainB] at hp
      simp only [canonB, Bool.and_eq_true] at hc
      have helem : ∀ p ∈ kvs, deepTransformF t fuel p.2 = .ok (embedC p.2) := by
        intro p hpm
        refine ih p.2 (plain_of_pair_mem p kvs hp hpm) (canon_of_pair_mem p kvs hc.2 hpm) ?_
        have h1 : sizeP p.2 ≤ sizePPairs kvs := sizeP_of_pair_mem p kvs hpm
        have h2 : 1 + sizePPairs kvs ≤ fuel + 1 := by simpa [sizeP] using hs
        omega
      show (match seqList ((sortStrs (kvs.map Prod.fst)).map (fun k =>
          match lookupA k kvs with
          | some w =>
            match deepTransformF t fuel w with
            | Except.error e => Except.error e
            | Except.ok tw => Except.ok (k, tw)
          | none => Except.error Err.keyError)) with
        | .error e => .error e
        | .ok ts => .ok (.dictT ts)) = Except.ok (embedC (PyVal.dictV kvs))
      rw [sortStrs_of_sortedStrict _ hc.1, dictMapEmbed t fuel kvs hc.1 helem,
        seqList_map_ok]
      simp [embedC, embedCPairs_eq_map]

/-- On plain canonical values `repr_hashable` succeeds and renders exactly
the embedded value, for any hook: `transform` is never consulted. -/
theorem reprHashable_canon (v : PyVal) (hook : Option Hook)
    (hp : plainB v = true) (hc : canonB v = true) :
    reprHashable v hook = .ok (reprTVal (embedC v)) := by
  simp only [reprHashable, deepTransform]
  rw [dtF_canon (transformOf hook) (sizeP v) v hp hc (Nat.le_refl _)]

/-- The structural embedding is injective on plain values. -/
theorem embedC_inj_fuel : ∀ (n : Nat) (v w : PyVal), sizeP v ≤ n →
    plainB v = true → plainB w = true → embedC v = embedC w → v = w := by
  intro n
  induction n with
  | zero =>
    intro v _ hs
    exact absurd (Nat.le_trans (sizeP_pos v) hs) (by simp)
  | succ n ih =>
    intro v w hs hp hq h
    have hauxL : ∀ (xs ys : List PyVal), sizePList xs ≤ n →
        plainListB xs = true → plainListB ys = true →
        xs.map embedC = ys.map embedC → xs = ys := by
      intro xs
      induction xs with
      | nil =>
        intro ys _ _ _ hmap
        cases ys with
        | nil => rfl
        | cons y yr => simp at hmap
      | cons x xr ihx =>
        intro ys hsz hpx hpy hmap
        cases ys with
        | nil => simp at hmap
        | cons y yr =>
          simp only [List.map_cons, List.cons.injEq] at hmap
          simp only [plainListB, Bool.and_eq_true] at hpx hpy
          have hx : sizeP x ≤ n := by
            have := sizeP_pos x
            simp only [sizePList] at hsz
            omega
          have hxr : sizePList xr ≤ n := by
            have := sizeP_pos x
            simp only [sizePList] at hsz
            omega
          rw [ih x y hx hpx.1 hpy.1 hmap.1,
            ihx yr hxr hpx.2 hpy.2 hmap.2]
    have hauxP : ∀ (ps qs : List (String × PyVal)), sizePPairs ps ≤ n →
        plainPairsB ps = true → plainPairsB qs = true →
        ps.map (fun p => (p.1, embedC p.2)) = qs.map (fun p => (p.1, embedC p.2)) →
        ps = qs := by
      intro ps
      induction ps with
      | nil =>
        intro qs _ _ _ hmap
        cases qs with
        | nil => rfl
        | cons q qr => simp at hmap
      | cons p pr ihp =>
        intro qs hsz hpp hpq hmap
        cases qs with
        | nil => simp at hmap
        | cons q qr =>
          obtain ⟨k, x⟩ := p
          obtain ⟨k', y⟩ := q
          simp only [List.map_cons, List.cons.injEq, Prod.mk.injEq] at hmap
          simp only [plainPairsB, Bool.and_eq_true] at hpp hpq
          have hx : sizeP x ≤ n := by
            have := sizeP_pos x
            simp only [sizePPairs] at hsz
            omega
          have hpr : sizePPairs pr ≤ n := by
            have := sizeP_pos x
            simp only [sizePPairs] at hsz
            omega
          rw [hmap.1.1, ih x y hx hpp.1 hpq.1 hmap.1.2,
            ihp qr hpr hpp.2 hpq.2 hmap.2]
    cases v with
    | objV i ch => simp [plainB] at hp
    | noneV =>
      cases w <;> first
        | rfl
        | simp [embedC] at h
    | boolV b =>
      cases w <;> first
        | (simp only [embedC, TVal.boolT.injEq] at h; rw [h])
        | simp [embedC] at h
    | intV i =>
      cases w <;> first
        | (simp only [embedC, TVal.intT.injEq] at h; rw [h])
        | simp [embedC] at h
    | strV s =>
      cases w <;> first
        | (simp only [embedC, TVal.strT.injEq] at h; rw [h])
        | simp [embedC] at h
    | listV xs =>
      cases w with
      | listV ys =>
        simp only [embedC, TVal.listT.injEq, embedCList_eq_map] at h
        simp only [plainB] at hp hq
        have hsz : sizePList xs ≤ n := by
          simp only [sizeP] at hs
          omega
        rw [hauxL xs ys hsz hp hq h]
      | objV i ch => simp [plainB] at hq
      | noneV => simp [embedC] at h
      | boolV b => simp [embedC] at h
      | intV i => simp [embedC] at h
      | strV s => simp [embedC] at h
      | tupleV ys => simp [embedC] at h
      | dictV qs => simp [embedC] at h
    | tupleV xs =>
      cases w with
      | tupleV ys =>
        simp only [embedC, TVal.tupleT.injEq, embedCList_eq_map] at h
        simp only [plainB] at hp hq
        have hsz : sizePList xs ≤ n := by
          simp only [sizeP] at hs
          omega
        rw [hauxL xs ys hsz hp hq h]
      | objV i ch => simp [plainB] at hq
      | noneV => simp [embedC] at h
      | boolV b => simp [embedC] at h
      | intV i => simp [embedC] at h
      | strV s => simp [embedC] at h
      | listV ys => simp [embedC] at h
      | dictV qs => simp [embedC] at h
    | dictV ps =>
      cases w with
      | dictV qs =>
        simp only [embedC, TVal.dictT.injEq, embedCPairs_eq_map] at h
        simp only [plainB] at hp hq
        have hsz : sizePPairs ps ≤ n := by
          simp only [sizeP] at hs
          omega
        rw [hauxP ps qs hsz hp hq h]
      | objV i ch => simp [plainB] at hq
      | noneV => simp [embedC] at h
      | boolV b => simp [embedC] at h
      | intV i => simp [embedC] at h
      | strV s => simp [embedC] at h
      | listV ys => simp [embedC] at h
      | tupleV ys => simp [embedC] at h

theorem embedC_injective (v w : PyVal) (hp : plainB v = true) (hq : plainB w = true)
    (h : embedC v = embedC w) : v = w :=
  embedC_inj_fuel (sizeP v) v w (Nat.le_refl _) hp hq h

theorem specPyVal_plain_single (astc name tok : String) :
    plainB (specPyVal astc [(name, tok)]) = true := by
  simp [specPyVal, plainB, plainPairsB]

theorem specPyVal_canon_single (astc name tok : String) :
    canonB (specPyVal astc [(name, tok)]) = true := by
  have h : strLtB "ast_code" "globals" = true := by decide
  simp [specPyVal, canonB, canonPairsB, sortedStrictKeys, h]

/-- Extract the single dependency token back out of the canonical record. -/
def tokAt (v : PyVal) : String :=
  match v with
  | .dictV [_, (_, .dictV [(_, .strV tok)])] => tok
  | _ => ""

/-- A function whose single dependency is a plain canonical value hashes,
on a cache miss, to the digest of the canonical record built from its
normalized code and the value's own composite token. -/
theorem hashFunction_plain_canon_val (env : Env) (fuel : Nat) (cache : Cache) (fid : Nat)
    (fd : FuncDef) (name : String) (v : PyVal) (hook : Option Hook)
    (hc : lookupA fid cache = none)
    (hfd : lookupA fid env.funcs = some fd)
    (hub : (getclosurevars fd).unbound = [])
    (hitems : (getclosurevars fd).nonlocals ++ (getclosurevars fd).globalVars =
      [(name, Value.plain v)])
    (hp : plainB v = true) (hcn : canonB v = true) :
    (hashFunction (fuel+1) env hook cache fid).1 =
      .ok (hashText (reprTVal (embedC (specPyVal (astCodeOf fd.src)
        [(name, "composite:" ++ hashText (reprTVal (embedC v)))])))) := by
  rw [hashFunction_succ]
  simp only [hc, hfd, hashedGlobalsOf, hub, List.isEmpty_nil, if_true, hitems]
  simp only [globalsLoop, hashItemG, reprHashable_canon v hook hp hcn]
  simp only [dictInsert, lookupA, Option.isSome_none, Bool.false_eq_true, if_false,
    List.nil_append]
  rw [reprHashable_canon _ none
    (specPyVal_plain_single (astCodeOf fd.src) name ("composite:" ++ hashText (reprTVal (embedC v))))
    (specPyVal_canon_single (astCodeOf fd.src) name ("composite:" ++ hashText (reprTVal (embedC v))))]
  simp only [hc]

/-- C4 (amended): captured-mutable-value sensitivity holds for the runs the
cache does not serve.  For a function object whose single outside dependency
is a plain container value, two identity computations against two contents
of that container — neither run answered from the identity cache — succeed
and yield different digests whenever the contents differ (contents taken in
canonical form, dict keys strictly sorted, so that equality of values is
equality of content).  The unqualified claim is refuted by
`c4_counterexample`: when the second run is served by the process-wide
cache under the same function object, the stale identity is returned even
though the captured content changed, so the cache does affect outcomes
beyond performance. -/
theorem c4_value_sensitive (env1 env2 : Env) (fuel1 fuel2 : Nat) (c1 c2 : Cache)
    (fid : Nat) (fd1 fd2 : FuncDef) (name : String) (v w : PyVal)
    (hook1 hook2 : Option Hook)
    (hc1 : lookupA fid c1 = none) (hc2 : lookupA fid c2 = none)
    (hfd1 : lookupA fid env1.funcs = some fd1)
    (hfd2 : lookupA fid env2.funcs = some fd2)
    (hsrc : fd1.src = fd2.src)
    (hub1 : (getclosurevars fd1).unbound = [])
    (hub2 : (getclosurevars fd2).unbound = [])
    (hitems1 : (getclosurevars fd1).nonlocals ++ (getclosurevars fd1).globalVars =
      [(name, Value.plain v)])
    (hitems2 : (getclosurevars fd2).nonlocals ++ (getclosurevars fd2).globalVars =
      [(name, Value.plain w)])
    (hpv : plainB v = true) (hcv : canonB v = true)
    (hpw : plainB w = true) (hcw : canonB w = true)
    (hne : v ≠ w) :
    ∃ d1 d2, (hashFunction (fuel1+1) env1 hook1 c1 fid).1 = .ok d1 ∧
      (hashFunction (fuel2+1) env2 hook2 c2 fid).1 = .ok d2 ∧ d1 ≠ d2 := by
  refine ⟨_, _,
    hashFunction_plain_canon_val env1 fuel1 c1 fid fd1 name v hook1
      hc1 hfd1 hub1 hitems1 hpv hcv,
    hashFunction_plain_canon_val env2 fuel2 c2 fid fd2 name w hook2
      hc2 hfd2 hub2 hitems2 hpw hcw, ?_⟩
  intro heq
  rw [hsrc] at heq
  have h1 := hashText_inj _ _ heq
  have h2 := reprTVal_inj _ _ h1
  have h3 := embedC_injective _ _
    (specPyVal_plain_single (astCodeOf fd2.src) name
      ("composite:" ++ hashText (reprTVal (embedC v))))
    (specPyVal_plain_single (astCodeOf fd2.src) name
      ("composite:" ++ hashText (reprTVal (embedC w)))) h2
  have h4 : ("composite:" ++ hashText (reprTVal (embedC v)))
      = ("composite:" ++ hashText (reprTVal (embedC w))) := congrArg tokAt h3
  have h5 := string_append_left_cancel "composite:" _ _ h4
  have h6 := hashText_inj _ _ h5
  have h7 := reprTVal_inj _ _ h6
  exact hne (embedC_injective v w hpv hpw h7)

def vC4a : PyVal := .listV [.intV 1, .intV 2, .tupleV [.intV 1, .intV 2]]

def vC4b : PyVal := .listV [.intV 1, .intV 2, .tupleV [.intV 1, .intV 3]]

def fdC4a : FuncDef := ⟨⟨[], "f", [], [.ret (some (.nameE "o"))]⟩, "m", "f",
  [], [("o", .plain vC4a)], [], .mk ["o"] []⟩

def fdC4b : FuncDef := ⟨⟨[], "f", [], [.ret (some (.nameE "o"))]⟩, "m", "f",
  [], [("o", .plain vC4b)], [], .mk ["o"] []⟩

def envC4a : Env := ⟨[(60, fdC4a)], [], []⟩

def envC4b : Env := ⟨[(60, fdC4b)], [], []⟩

def okS (r : Except Err String) : String :=
  match r with
  | .ok s => s
  | .error _ => ""

/-- The process-wide cache is keyed by function object identity alone
(line 35), so it does affect outcomes beyond performance: after hashing a
function that captures the container `[1, 2, (1, 2)]`, mutating the
container's content to `[1, 2, (1, 3)]` and hashing the same function
object again inside the same process returns the first run's identity
unchanged, although a fresh-cache run distinguishes the two contents. -/
theorem c4_counterexample :
    vC4a ≠ vC4b ∧
    (hashFunction 1 envC4b none [] 60).1 ≠ (hashFunction 1 envC4a none [] 60).1 ∧
    (hashFunction 1 envC4b none (hashFunction 1 envC4a none [] 60).2 60).1
      = (hashFunction 1 envC4a none [] 60).1 := by
  refine ⟨?_, ?_, rfl⟩
  · intro h
    exact absurd (congrArg (fun x => reprTVal (embedC x)) h) (by decide)
  · intro h
    exact absurd (congrArg okS h) (by decide)

/-- Witness for C4 mirroring `test_composite`: the two contents of the
captured list yield different identities when neither run is served from
the cache. -/
theorem c4_value_sensitive_witness :
    ∃ d1 d2, (hashFunction 1 envC4a none [] 60).1 = .ok d1 ∧
      (hashFunction 1 envC4b none [] 60).1 = .ok d2 ∧ d1 ≠ d2 :=
  c4_value_sensitive envC4a envC4b 0 0 [] [] 60 fdC4a fdC4b "o" vC4a vC4b none none
    rfl rfl rfl rfl rfl rfl rfl rfl rfl (by decide) (by decide) (by decide) (by decide)
    (fun h => absurd (congrArg (fun x => reprTVal (embedC x)) h) (by decide))
